import Mathlib

/-
  Verification development for the Generic-RAG pipeline.

  Shallow embedding of the pure/algorithmic core of the repository:
  - src/bots/bot2_chunker.py        (normalize_text, chunk_by_tokens)
  - src/bots/bot3_extractor.py      (extract_entities_and_relationships, persist_extraction)
  - src/bots/bot4_reference_extractor.py (extract_cross_section_references)
  - src/bots/bot7_community_detection.py (detect_section_communities)
  - src/bots/bot8_financial_facts.py (parse_column, column metadata)
  - src/database/neo4j_client.py    (create_entity, create_relationship)
  - src/query/global_query_v4.py    (global_query_v5, detect_query_intent)

  Strings are modelled over their character lists; Python string predicates
  (str.strip, str.split, str.lower, str.upper, str.isdigit) are embedded for
  the ASCII character range, which covers all concrete inputs appearing in the
  claims.  The Neo4j store is modelled as an association list keyed by the
  natural (doc_id, name) key, mirroring Cypher MERGE semantics; the generative
  backend and the Louvain partitioner are external collaborators and enter as
  explicit parameters.
-/

namespace GenericRAG

/-! ## Python string primitives (ASCII fragment) -/

/-- Python whitespace characters (ASCII fragment: the six characters
`str.split`/`str.strip` treat as whitespace). -/
def pyWS (c : Char) : Bool :=
  c = ' ' || c = '\t' || c = '\n' || c = '\r' || c = '\x0b' || c = '\x0c'

/-- Horizontal whitespace, the class `[ \t]` used by the chunker's regexes. -/
def hws (c : Char) : Bool :=
  c = ' ' || c = '\t'

/-- Strip `pyWS` characters from both ends of a character list
(Python `str.strip()` on ASCII text). -/
def pyStripList (cs : List Char) : List Char :=
  ((cs.dropWhile pyWS).reverse.dropWhile pyWS).reverse

/-- Python `str.strip()` on ASCII text. -/
def pyStrip (s : String) : String :=
  String.mk (pyStripList s.toList)

/-- Python `str.lower()` on ASCII text. -/
def pyLower (s : String) : String :=
  String.mk (s.toList.map Char.toLower)

/-- Python `str.upper()` on ASCII text. -/
def pyUpper (s : String) : String :=
  String.mk (s.toList.map Char.toUpper)

/-- Python `str.isdigit()` on ASCII text: nonempty and all characters are
decimal digits. -/
def pyIsDigit (s : String) : Bool :=
  !s.isEmpty && s.toList.all Char.isDigit

/-- One step of whitespace-splitting: accumulate words (Python `str.split()`
with no argument).  The accumulator carries the finished words and the
current word reversed. -/
def pySplitStep (acc : List String × List Char) (c : Char) : List String × List Char :=
  if pyWS c then
    if acc.2.isEmpty then acc else (acc.1 ++ [String.mk acc.2.reverse], [])
  else
    (acc.1, c :: acc.2)

/-- Python `str.split()` (split on whitespace runs, dropping empty pieces). -/
def pySplit (s : String) : List String :=
  let r := s.toList.foldl pySplitStep ([], [])
  if r.2.isEmpty then r.1 else r.1 ++ [String.mk r.2.reverse]

/-- Boolean substring test on character lists: does `needle` occur
contiguously inside `hay`?  (Python's `in` operator on strings.) -/
def infixB (needle : List Char) : List Char → Bool
  | [] => needle.isEmpty
  | c :: t => needle.isPrefixOf (c :: t) || infixB needle t

/-- Python `needle in hay` on strings. -/
def strContains (hay needle : String) : Bool :=
  infixB needle.toList hay.toList

/-! ## src/bots/bot8_financial_facts.py -/

/--
Embedding of `parse_column` (src/bots/bot8_financial_facts.py lines 57-72):

    if "_" not in col: return None, None
    scope, year = col.split("_", 1)
    if not year.isdigit(): return None, None
    if scope.upper() not in {"GROUP", "COMPANY"}: return None, None
    return scope.upper(), year

`col.split("_", 1)` splits at the first underscore only.
-/
def parse_column (col : String) : Option String × Option String :=
  if col.toList.contains '_' = true then
    let scope := String.mk (col.toList.takeWhile (fun c => c ≠ '_'))
    let year := String.mk ((col.toList.dropWhile (fun c => c ≠ '_')).tail)
    if pyIsDigit year = true then
      if pyUpper scope = "GROUP" ∨ pyUpper scope = "COMPANY" then
        (some (pyUpper scope), some year)
      else (none, none)
    else (none, none)
  else (none, none)

/--
Embedding of the column-metadata construction in `extract_facts_from_tables`
(src/bots/bot8_financial_facts.py lines 126-131): only columns whose
`parse_column` result has both components participate in fact generation.
Each entry is (lowercased column name, scope, year).
-/
def buildColMeta (columns : List String) : List (String × String × String) :=
  columns.filterMap fun col =>
    match parse_column col with
    | (some scope, some year) => some (pyLower col, scope, year)
    | _ => none

/-! ## src/database/neo4j_client.py : entities -/

/-- Stored properties of an `Entity` node (the fields `create_entity`
reads or writes; `created_at` is a wall-clock timestamp set only on
creation and is not part of the modelled state). -/
structure EntityProps where
  etype : String
  description : String
  salience : String
  deriving DecidableEq

/--
The `ON CREATE` / `ON MATCH` logic of `create_entity`
(src/database/neo4j_client.py lines 117-154) on one (doc_id, name) key:

    MERGE (e:Entity {doc_id: $doc_id, name: $name})
    ON CREATE SET e.type = $type, e.description = $description, e.salience = $salience
    ON MATCH SET
      e.description = CASE WHEN size($description) > size(e.description)
                      THEN $description ELSE e.description END,
      e.salience = CASE WHEN e.salience = 'SUPPORTING'
                        AND $salience IN ['CORE','IMPORTANT']
                   THEN $salience ELSE e.salience END

Both `ON MATCH` right-hand sides read the pre-update snapshot of `e`.
-/
def upsertEntityProps (st : Option EntityProps) (etype description salience : String) :
    EntityProps :=
  match st with
  | none => ⟨etype, description, salience⟩
  | some e =>
    { etype := e.etype
      description :=
        if e.description.length < description.length then description else e.description
      salience :=
        if e.salience = "SUPPORTING" ∧ (salience = "CORE" ∨ salience = "IMPORTANT")
        then salience else e.salience }

/-- The graph store restricted to `Entity` nodes: an association list from the
natural key (doc_id, name) to the stored properties. -/
abbrev EntityStore := List ((String × String) × EntityProps)

/-- Look up the entity stored under a key (the node `MERGE` matches). -/
def storeFind (st : EntityStore) (k : String × String) : Option EntityProps :=
  (st.find? fun p => p.1 = k).map (·.2)

/-- Replace the value stored at key `k` (the `SET` applied to the matched
node), leaving other keys untouched. -/
def updEntry (k : String × String) (v : EntityProps)
    (p : (String × String) × EntityProps) : (String × String) × EntityProps :=
  if p.1 = k then (p.1, v) else p

/--
Embedding of `create_entity` (src/database/neo4j_client.py lines 117-154) as a
store transformer: `MERGE` creates the node when the key is absent and
otherwise applies the conditional `ON MATCH` updates to the matched node.
-/
def create_entity (st : EntityStore) (doc_id name etype description salience : String) :
    EntityStore :=
  let k := (doc_id, name)
  match storeFind st k with
  | none => st ++ [(k, upsertEntityProps none etype description salience)]
  | some e => st.map (updEntry k (upsertEntityProps (some e) etype description salience))

/-- The salience currently stored under a key, if any. -/
def salienceAt (st : EntityStore) (k : String × String) : Option String :=
  (storeFind st k).map (·.salience)

/-! ## src/database/neo4j_client.py : relationships, and bot3 persistence -/

/-- The closed set of allowed relationship types (`allowed` in
`create_relationship`, and `ALLOWED_REL_TYPES` in bot3). -/
def ALLOWED_REL_TYPES : List String :=
  ["DEFINES", "DETAILS", "REFERS_TO", "ASSOCIATED_WITH"]

/-- A `MERGE (s)-[r:TYPE]->(t)` request issued by `create_relationship`. -/
structure RelWrite where
  src : String
  tgt : String
  relType : String
  desc : String
  deriving DecidableEq

/--
Embedding of `create_relationship` (src/database/neo4j_client.py lines
156-186).  The function uppercases the type, returns `false` without touching
the store when the type is not allowed, and otherwise executes the `MERGE`
statement and returns `true`.  The second component records the `MERGE`
request it executes (`none` when it performs no write).
-/
def create_relationship (source_name target_name rel_type description : String) :
    Bool × Option RelWrite :=
  let rt := pyUpper rel_type
  if ALLOWED_REL_TYPES.contains rt then
    (true, some ⟨source_name, target_name, rt, description⟩)
  else
    (false, none)

/-- Embedding of `normalize_name` (src/bots/bot3_extractor.py lines 134-135):
`" ".join(name.strip().split()) if name else ""`, where a missing (`None`) or
empty name is falsy. -/
def normalize_name (name : Option String) : String :=
  match name with
  | none => ""
  | some s => if s.isEmpty then "" else " ".intercalate (pySplit s)

/-- A relationship dictionary as produced by the extractor (the fields
`persist_extraction` reads with `.get`). -/
structure RelJson where
  source : Option String
  target : Option String
  rtype : Option String
  description : Option String

/--
Embedding of the relationship loop of `persist_extraction`
(src/bots/bot3_extractor.py lines 232-251): for each relationship the caller
uppercases the type and skips it when the type is not allowed, normalizes both
endpoint names, and skips empty endpoints and self-loops before calling
`create_relationship`.  The result is the list of `MERGE` requests actually
executed.
-/
def persistRelWrites (rels : List RelJson) : List RelWrite :=
  rels.filterMap fun r =>
    let rt := pyUpper (r.rtype.getD "")
    if ALLOWED_REL_TYPES.contains rt then
      let src := normalize_name r.source
      let tgt := normalize_name r.target
      if src = "" ∨ tgt = "" ∨ src = tgt then none
      else (create_relationship src tgt rt (r.description.getD "")).2
    else none

/-! ## src/bots/bot3_extractor.py : generative extraction -/

/-- A JSON value, as produced by `json.loads`. -/
inductive Json where
  | null
  | bool (b : Bool)
  | num (n : Int)
  | str (s : String)
  | arr (xs : List Json)
  | obj (fields : List (String × Json))

/-- Python `dict.get` on a parsed JSON value: key lookup on an object.  On a
non-object the attribute access raises in Python; that case is handled by the
caller's exception branch. -/
def Json.getKey : Json → String → Option Json
  | .obj fields, k => (fields.find? fun p => p.1 = k).map (·.2)
  | _, _ => none

/-- Embedding of `_safe_list` (src/bots/bot3_extractor.py lines 130-131):
`v if isinstance(v, list) else []`, where `v` may be the `None` of a missing
key. -/
def safe_list (v : Option Json) : List Json :=
  match v with
  | some (.arr xs) => xs
  | _ => []

/-- Outcome of the whole body of the `try` block of
`extract_entities_and_relationships` up to and including `json.loads`:
either some exception was raised (backend failure via `chat_completion`,
missing response fields, or a JSON parse error), or a JSON value was
successfully parsed from the response content. -/
inductive LLMOutcome where
  | exn
  | parsed (j : Json)

/-- The extraction result dictionary `{entities: [...], relationships: [...]}`. -/
structure Extraction where
  entities : List Json
  relationships : List Json

/-- The empty extraction result. -/
def emptyExtraction : Extraction := ⟨[], []⟩

/--
Embedding of `extract_entities_and_relationships`
(src/bots/bot3_extractor.py lines 142-179).  The second component of the
result records whether the generative backend was invoked (i.e. whether the
`try` block was entered).  An `is_empty` marker or whitespace-only text
short-circuits to the empty result.  Inside the `try` block, any exception
(`.exn`, which also covers `.get` raised on a non-object payload) is absorbed
by the `except` clause and yields the empty result; a parsed object payload
yields its two list-valued keys truncated to 25 and 30 items.
-/
def extract_entities_and_relationships (text : String) (is_empty : Bool)
    (outcome : LLMOutcome) : Extraction × Bool :=
  if is_empty || (pyStrip text).isEmpty then
    (emptyExtraction, false)
  else
    match outcome with
    | .exn => (emptyExtraction, true)
    | .parsed j =>
      match j with
      | .obj fields =>
        (⟨(safe_list (Json.getKey (.obj fields) "entities")).take 25,
          (safe_list (Json.getKey (.obj fields) "relationships")).take 30⟩, true)
      | _ => (emptyExtraction, true)

/-! ## src/bots/bot2_chunker.py : chunking -/

/-- The hard chunk-size safety ceiling (src/config/settings.py line 81). -/
def MAX_CHUNK_SIZE : Nat := 800

/--
The `while start < len(tokens)` loop of `chunk_by_tokens`
(src/bots/bot2_chunker.py lines 74-92), operating on the encoder's token
sequence.  Each step takes the slice `tokens[start:end]` with
`end = min(start + chunk_size, len(tokens))`, fails when the slice exceeds
`MAX_CHUNK_SIZE`, stops after the slice reaching the end, and otherwise
advances to `start = max(end - overlap, start + 1)`.
-/
def chunkLoop (tokens : List Nat) (chunk_size overlap start : Nat) :
    Except String (List (List Nat)) :=
  if h : start < tokens.length then
    let e := min (start + chunk_size) tokens.length
    let c := (tokens.drop start).take (e - start)
    if c.length > MAX_CHUNK_SIZE then
      .error "Chunk exceeds MAX_CHUNK_SIZE safety limit"
    else if e = tokens.length then
      .ok [c]
    else
      match chunkLoop tokens chunk_size overlap (max (e - overlap) (start + 1)) with
      | .ok rest => .ok (c :: rest)
      | .error m => .error m
  else
    .ok []
termination_by tokens.length - start
decreasing_by
  omega

/--
Embedding of `chunk_by_tokens` (src/bots/bot2_chunker.py lines 60-92) over the
encoder's token sequence (the external tokenizer encodes the text to `tokens`
and decodes each produced slice back to a string; token counts are slice
lengths).  A text of at most `chunk_size` tokens is returned whole without
entering the loop.
-/
def chunk_by_tokens (tokens : List Nat) (chunk_size overlap : Nat) :
    Except String (List (List Nat)) :=
  if tokens.length ≤ chunk_size then .ok [tokens]
  else chunkLoop tokens chunk_size overlap 0

/-! ## src/bots/bot7_community_detection.py -/

/-- The section graph built by `get_section_graph`, after networkx
deduplication: `nodes` lists the distinct section ids, `edges` the distinct
undirected weighted edges. -/
structure SectionGraph where
  nodes : List String
  edges : List (String × String × ℚ)

/-- Group a Louvain partition (section id → community id) into the
`communities` dictionary built with `setdefault` in the source: community ids
in first-appearance order, each with its members in iteration order. -/
def groupPartition (p : List (String × Nat)) : List (Nat × List String) :=
  p.foldl (fun acc x =>
    if acc.any (fun c => c.1 = x.2) then
      acc.map fun c => if c.1 = x.2 then (c.1, c.2 ++ [x.1]) else c
    else
      acc ++ [(x.2, [x.1])]) []

/-- The observable outcome of `detect_section_communities`: the returned
status dictionary, together with the communities handed to
`_persist_communities` when persistence happens at all. -/
inductive DetectResult where
  | empty
  | persisted (mode : String) (communities : List (Nat × List String)) (modularity : ℚ)
  | skipped (nodes edges : Nat)
  | rejected (modularity : ℚ)
  deriving DecidableEq

/--
Embedding of `detect_section_communities`
(src/bots/bot7_community_detection.py lines 150-243).  The Louvain library
call (`best_partition` plus `modularity`) is an external collaborator passed
as the parameter `louvain`.  Node and edge counts are those of the networkx
graph (`number_of_nodes`, `number_of_edges`).
-/
def detect_section_communities (G : SectionGraph)
    (louvain : SectionGraph → List (String × Nat) × ℚ) : DetectResult :=
  let n := G.nodes.length
  let m := G.edges.length
  if n = 0 then
    .empty
  else if n ≤ 15 then
    if m = 0 then
      .persisted "small" [(0, G.nodes)] 0
    else
      let r := louvain G
      .persisted "small" (groupPartition r.1) r.2
  else if m < n then
    .skipped n m
  else
    let r := louvain G
    if r.2 < 15 / 100 then
      .rejected r.2
    else
      .persisted "normal" ((groupPartition r.1).filter fun c => 2 ≤ c.2.length) r.2

/-! ## src/query/global_query_v4.py -/

/-- Embedding of `detect_query_intent` (src/query/global_query_v4.py lines
27-41). -/
def detect_query_intent (query : String) : String :=
  let q := pyLower query
  if ["summarize", "summary", "overview", "explain", "high level",
      "what is this about"].any (fun k => strContains q k) then "SUMMARY"
  else if ["compare", "trend", "over time"].any (fun k => strContains q k) then "TEMPORAL"
  else "GRAPH_ONLY"

/-- One row returned by `fetch_graph_context`; nullable Cypher columns are
options. -/
structure ContextRow where
  section_id : Option String
  section_title : Option String
  page_start : Option Nat
  entity : String
  etype : String
  description : Option String
  salience : String
  financial_concept : Option String
  time_period : Option String

/-- Python truthiness of a nullable string: `None` and `""` are falsy. -/
def truthy (o : Option String) : Bool :=
  match o with
  | none => false
  | some s => !s.isEmpty

/-- The result dictionary of `global_query_v5`. -/
structure QueryResult where
  query : String
  answer : String
  references : List (Option String × Option Nat)

/-- One bullet line of the compact structured context
(src/query/global_query_v4.py lines 141-145). -/
def contextLine (r : ContextRow) : String :=
  "- " ++ r.entity ++ " (" ++ r.etype ++ ", " ++ r.salience ++ ")"
    ++ (match r.financial_concept with
        | some fc => if fc.isEmpty then "" else " → " ++ fc
        | none => "")
    ++ (match r.description with
        | some d => if d.isEmpty then "" else ": " ++ d
        | none => "")

/--
Embedding of `global_query_v5` (src/query/global_query_v4.py lines 114-208).
The generative backend and the community summarizer are external
collaborators: `llmAnswer` stands for the `chat_completion` response to the
rendered prompt and `communitySummaries` for the stored/generated community
summaries fetched in the SUMMARY branch.  The second component of the result
records whether the generative backend was invoked.  References are the
deduplicated (section title, page) pairs of rows with a truthy section title
(the Python `set` is modelled as first-occurrence deduplication).
-/
def global_query_v5 (question : String) (rows : List ContextRow)
    (llmAnswer : String) (communitySummaries : List String) : QueryResult × Bool :=
  let intent := detect_query_intent question
  if rows.isEmpty then
    (⟨question, "No relevant information found in the document graph.", []⟩, false)
  else
    let references := rows.map fun r => (r.section_title, r.page_start)
    let answer :=
      if intent = "SUMMARY" then
        llmAnswer ++ "\n\n📌 COMMUNITY OVERVIEW:\n"
          ++ String.join (communitySummaries.map fun s => "- " ++ s ++ "\n")
      else llmAnswer
    (⟨question, pyStrip answer,
      (references.filter fun p => truthy p.1).dedup⟩, true)

/-! ## src/bots/bot2_chunker.py : normalize_text -/

/-- Worker for collapsing newline runs: `k` counts the pending `'\n'`
characters; a run of three or more is emitted as exactly two
(`re.sub(r"\n{3,}", "\n\n", text)`). -/
def collapseNLAux (k : Nat) : List Char → List Char
  | [] => List.replicate (min k 2) '\n'
  | c :: rest =>
    if c = '\n' then collapseNLAux (k + 1) rest
    else List.replicate (min k 2) '\n' ++ c :: collapseNLAux 0 rest

/-- Collapse runs of three or more newlines to two. -/
def collapseNL (cs : List Char) : List Char :=
  collapseNLAux 0 cs

/-- Emit a pending horizontal-whitespace run: a run of length two or more
becomes a single space, a single character is kept verbatim
(`re.sub(r"[ \t]{2,}", " ", text)` replaces only runs of length ≥ 2). -/
def emitHWS (run : List Char) : List Char :=
  match run with
  | [] => []
  | [c] => [c]
  | _ => [' ']

/-- Worker for collapsing horizontal-whitespace runs; `run` holds the
pending run in order. -/
def collapseHWSAux (run : List Char) : List Char → List Char
  | [] => emitHWS run
  | c :: rest =>
    if hws c then collapseHWSAux (run ++ [c]) rest
    else emitHWS run ++ c :: collapseHWSAux [] rest

/-- Collapse runs of two or more spaces/tabs to a single space. -/
def collapseHWS (cs : List Char) : List Char :=
  collapseHWSAux [] cs

/-- Worker for `str.splitlines` restricted to `'\n'` boundaries (the only
line-break character in the modelled alphabet); `cur` holds the current line
reversed.  A trailing newline does not open a final empty line, matching
Python. -/
def splitLinesAux (cur : List Char) : List Char → List (List Char)
  | [] => if cur.isEmpty then [] else [cur.reverse]
  | c :: rest =>
    if c = '\n' then cur.reverse :: splitLinesAux [] rest
    else splitLinesAux (c :: cur) rest

/-- Python `str.splitlines()` on text whose only line break is `'\n'`. -/
def splitLinesList (cs : List Char) : List (List Char) :=
  splitLinesAux [] cs

/-- Python `line.rstrip()`: drop trailing whitespace characters. -/
def rstripLine (cs : List Char) : List Char :=
  (cs.reverse.dropWhile pyWS).reverse

/-- Python `"\n".join(lines)`. -/
def joinNL : List (List Char) → List Char
  | [] => []
  | [l] => l
  | l :: ls => l ++ '\n' :: joinNL ls

/--
Embedding of `normalize_text` (src/bots/bot2_chunker.py lines 42-49) on
character lists:

    text = re.sub(r"\n{3,}", "\n\n", text)
    text = re.sub(r"[ \t]{2,}", " ", text)
    lines = [line.rstrip() for line in text.splitlines()]
    return "\n".join(lines).strip()
-/
def normList (cs : List Char) : List Char :=
  pyStripList (joinNL ((splitLinesList (collapseHWS (collapseNL cs))).map rstripLine))

/-- Embedding of `normalize_text` (src/bots/bot2_chunker.py lines 42-49). -/
def normalize_text (s : String) : String :=
  String.mk (normList s.toList)

/-! ## src/bots/bot4_reference_extractor.py -/

/-- A regex word character (`\w`, ASCII fragment): letter, digit or
underscore. -/
def isWordChar (c : Char) : Bool :=
  c.isAlpha || c.isDigit || c = '_'

/-- The trailing `\b` after a locator: holds when the remaining text is empty
or starts with a non-word character. -/
def boundaryOK (rest : List Char) : Bool :=
  match rest with
  | [] => true
  | c :: _ => !isWordChar c

/-- Case-insensitive literal match at the head of the text (`keyword` is given
lowercase); returns the remaining text on success. -/
def matchLitCI : List Char → List Char → Option (List Char)
  | [], rest => some rest
  | _ :: _, [] => none
  | k :: ks, c :: cs => if c.toLower = k then matchLitCI ks cs else none

/-- The maximal prefix of the text matching `\d+(?:\.\d+)*`, assuming the
first character is a digit: digits are taken greedily and a dot is taken only
when followed by a digit (so the chain never ends in a dot). -/
def chainTake : List Char → List Char
  | [] => []
  | c :: rest =>
    if c.isDigit then c :: chainTake rest
    else if c = '.' then
      match rest with
      | d :: _ => if d.isDigit then c :: chainTake rest else []
      | [] => []
    else []

/--
Match the locator group `(\d+(?:\.\d+)*)\b` at the head of the text, with the
regex engine's backtracking on the trailing `\b`: the maximal chain is used
when it is followed by a non-word character or the end of text; otherwise the
last `.\d+` group is dropped (leaving the next character a dot, which
satisfies `\b`); shrinking only the digits of the last group can never
satisfy `\b` because the following character would be a digit.  Returns the
locator and the remaining text.
-/
def matchDigitLoc (cs : List Char) : Option (List Char × List Char) :=
  match cs with
  | [] => none
  | c :: _ =>
    if c.isDigit then
      let D := chainTake cs
      let rest := cs.drop D.length
      if boundaryOK rest then some (D, rest)
      else
        match D.reverse.dropWhile Char.isDigit with
        | '.' :: tl => some (tl.reverse, cs.drop tl.reverse.length)
        | _ => none
    else none

/-- Match the locator group `([A-Z])\b` (with `re.IGNORECASE`, so any ASCII
letter) at the head of the text; the captured character keeps its original
case. -/
def matchAlphaLoc (cs : List Char) : Option (List Char × List Char) :=
  match cs with
  | [] => none
  | c :: rest => if c.isAlpha && boundaryOK rest then some ([c], rest) else none

/-- One of the six locator patterns of `extract_cross_section_references`:
a lowercase literal keyword, its separator (`\s+` when `sepOneOrMore`, else
`\s*`), the locator shape (`alphaLoc` for the appendix letter), and the
reference type. -/
structure PatSpec where
  keyword : List Char
  sepOneOrMore : Bool
  alphaLoc : Bool
  rtype : String

/-- The pattern list of `extract_cross_section_references`
(src/bots/bot4_reference_extractor.py lines 29-36), in source order. -/
def refPatterns : List PatSpec :=
  [⟨"page".toList, true, false, "PAGE"⟩,
   ⟨"section".toList, true, false, "SECTION"⟩,
   ⟨"appendix".toList, true, true, "APPENDIX"⟩,
   ⟨"table".toList, true, false, "TABLE"⟩,
   ⟨"figure".toList, true, false, "FIGURE"⟩,
   ⟨"fig.".toList, false, false, "FIGURE"⟩]

/-- Try to match a pattern at the head of `cs`, where `prev` is the character
just before this position (`none` at the start of text); the leading `\b`
requires `prev` to be absent or a non-word character.  Returns the number of
characters consumed and the captured locator. -/
def tryMatchAt (p : PatSpec) (prev : Option Char) (cs : List Char) :
    Option (Nat × String) :=
  let boundary := match prev with | none => true | some c => !isWordChar c
  if boundary then
    match matchLitCI p.keyword cs with
    | none => none
    | some rest1 =>
      let ws := rest1.takeWhile pyWS
      let rest2 := rest1.dropWhile pyWS
      if p.sepOneOrMore && ws.isEmpty then none
      else
        match (if p.alphaLoc then matchAlphaLoc rest2 else matchDigitLoc rest2) with
        | none => none
        | some (loc, rest3) => some (cs.length - rest3.length, String.mk loc)
  else none

/-- The scanning loop of `re.finditer` for one pattern: positions are tried
left to right; after a match the scan resumes at the match end (`minPos`
suppresses starts inside the previous match); `prev` is the previous
character for the leading `\b`.  Produces (start, end, locator) triples. -/
def scanAux (p : PatSpec) (prev : Option Char) (cs : List Char)
    (pos minPos : Nat) : List (Nat × Nat × String) :=
  match cs with
  | [] => []
  | c :: rest =>
    if pos < minPos then scanAux p (some c) rest (pos + 1) minPos
    else
      match tryMatchAt p prev (c :: rest) with
      | some (len, loc) =>
        (pos, pos + len, loc) :: scanAux p (some c) rest (pos + 1) (pos + max len 1)
      | none => scanAux p (some c) rest (pos + 1) minPos

/-- All matches of one pattern over the text (`re.finditer`). -/
def scanPattern (p : PatSpec) (cs : List Char) : List (Nat × Nat × String) :=
  scanAux p none cs 0 0

/-- The disclosure cue words gating every reference
(src/bots/bot4_reference_extractor.py lines 44-46). -/
def cueWords : List (List Char) :=
  ["see".toList, "refer".toList, "defined".toList, "detailed".toList,
   "explained".toList, "shown".toList]

/-- Embedding of `_infer_reference_reason`
(src/bots/bot4_reference_extractor.py lines 61-66) on the lowercased window. -/
def infer_reference_reason (context : List Char) : String :=
  if infixB "defined".toList context then "DEFINED_IN"
  else if ["detailed".toList, "explained".toList, "described".toList].any
      (fun k => infixB k context) then "DETAILED_IN"
  else "REFERENCED_IN"

/-- A detected cross-section reference (the dictionary built at
src/bots/bot4_reference_extractor.py lines 49-56). -/
structure Reference where
  reference_id : String
  reference_type : String
  target_locator : String
  from_section_id : String
  doc_id : String
  reason : String
  deriving DecidableEq

/-- Embedding of `_deduplicate_references`
(src/bots/bot4_reference_extractor.py lines 69-81): keep the first occurrence
of each `reference_id`. -/
def dedupRefsAux (seen : List String) : List Reference → List Reference
  | [] => []
  | r :: t =>
    if seen.contains r.reference_id then dedupRefsAux seen t
    else r :: dedupRefsAux (r.reference_id :: seen) t

/-- The ±60-character window around a match, lowercased:
`text[max(0, start - 60) : min(len(text), end + 60)].lower()`. -/
def matchWindow (cs : List Char) (s e : Nat) : List Char :=
  ((cs.drop (s - 60)).take (min cs.length (e + 60) - (s - 60))).map Char.toLower

/-- The body of the match loop of `extract_cross_section_references`: a match
is kept only when the lowercased ±60-character window around it contains a
disclosure cue word, and then becomes a reference dictionary whose reason is
inferred from the window. -/
def refOfMatch (cs : List Char) (section_id doc_id : String) (p : PatSpec)
    (m : Nat × Nat × String) : Option Reference :=
  let window := matchWindow cs m.1 m.2.1
  if cueWords.any (fun k => infixB k window) then
    some ⟨doc_id ++ ":" ++ section_id ++ ":" ++ p.rtype ++ ":" ++ m.2.2,
          p.rtype, m.2.2, section_id, doc_id, infer_reference_reason window⟩
  else none

/--
Embedding of `extract_cross_section_references`
(src/bots/bot4_reference_extractor.py lines 18-58): for each pattern in
order, each regex match is kept only when the lowercased ±60-character window
around it contains a disclosure cue word; the kept matches become reference
dictionaries whose reason is inferred from the window, and the result is
deduplicated by `reference_id`.
-/
def extract_cross_section_references (text section_id doc_id : String) :
    List Reference :=
  dedupRefsAux [] (refPatterns.flatMap fun p =>
    (scanPattern p text.toList).filterMap (refOfMatch text.toList section_id doc_id p))

/-! ## Helper lemmas: entity store -/

theorem updEntry_fst (k : String × String) (v : EntityProps)
    (p : (String × String) × EntityProps) : (updEntry k v p).1 = p.1 := by
  unfold updEntry; split <;> rfl

theorem updEntry_updEntry (k : String × String) (v : EntityProps)
    (p : (String × String) × EntityProps) :
    updEntry k v (updEntry k v p) = updEntry k v p := by
  unfold updEntry
  split
  · simp_all
  · simp_all

theorem storeFind_nil (k : String × String) : storeFind [] k = none := rfl

theorem storeFind_cons (p : (String × String) × EntityProps) (st : EntityStore)
    (k : String × String) :
    storeFind (p :: st) k = if p.1 = k then some p.2 else storeFind st k := by
  unfold storeFind
  by_cases h : p.1 = k
  · rw [List.find?_cons_of_pos _ (by simpa using h), if_pos h]; rfl
  · rw [List.find?_cons_of_neg _ (by simpa using h), if_neg h]

theorem storeFind_append_of_none {st : EntityStore} {k : String × String}
    (v : EntityProps) (h : storeFind st k = none) :
    storeFind (st ++ [(k, v)]) k = some v := by
  induction st with
  | nil => simp [storeFind]
  | cons p t ih =>
    rw [storeFind_cons] at h
    rw [List.cons_append, storeFind_cons]
    by_cases hp : p.1 = k
    · rw [if_pos hp] at h; exact absurd h (by simp)
    · rw [if_neg hp] at h ⊢; exact ih h

theorem map_updEntry_of_none {st : EntityStore} {k : String × String}
    (v : EntityProps) (h : storeFind st k = none) :
    st.map (updEntry k v) = st := by
  induction st with
  | nil => rfl
  | cons p t ih =>
    rw [storeFind_cons] at h
    by_cases hp : p.1 = k
    · rw [if_pos hp] at h; exact absurd h (by simp)
    · rw [if_neg hp] at h
      simp only [List.map_cons, ih h]
      unfold updEntry
      rw [if_neg hp]

theorem storeFind_map_updEntry {st : EntityStore} {k : String × String}
    (v : EntityProps) {e : EntityProps} (h : storeFind st k = some e) :
    storeFind (st.map (updEntry k v)) k = some v := by
  induction st with
  | nil => simp [storeFind] at h
  | cons p t ih =>
    rw [storeFind_cons] at h
    simp only [List.map_cons]
    rw [storeFind_cons, updEntry_fst]
    by_cases hp : p.1 = k
    · rw [if_pos hp]
      unfold updEntry
      rw [if_pos hp]
    · rw [if_neg hp] at h
      rw [if_neg hp]
      exact ih h

theorem upsertEntityProps_idem (st : Option EntityProps) (ty d s : String) :
    upsertEntityProps (some (upsertEntityProps st ty d s)) ty d s =
      upsertEntityProps st ty d s := by
  cases st with
  | none => simp [upsertEntityProps]
  | some e =>
    simp only [upsertEntityProps, EntityProps.mk.injEq, true_and]
    refine ⟨?_, ?_⟩
    · by_cases h1 : e.description.length < d.length
      · rw [if_pos h1, ite_self]
      · rw [if_neg h1, if_neg h1]
    · by_cases h1 : e.salience = "SUPPORTING" ∧ (s = "CORE" ∨ s = "IMPORTANT")
      · rw [if_pos h1, ite_self]
      · rw [if_neg h1, if_neg h1]

theorem create_entity_find_of_none {st : EntityStore} {doc name : String}
    (ty d s : String) (h : storeFind st (doc, name) = none) :
    storeFind (create_entity st doc name ty d s) (doc, name) =
      some (upsertEntityProps none ty d s) := by
  simp only [create_entity]
  rw [h]
  exact storeFind_append_of_none _ h

theorem create_entity_find_of_some {st : EntityStore} {doc name : String}
    {e : EntityProps} (ty d s : String) (h : storeFind st (doc, name) = some e) :
    storeFind (create_entity st doc name ty d s) (doc, name) =
      some (upsertEntityProps (some e) ty d s) := by
  simp only [create_entity]
  rw [h]
  exact storeFind_map_updEntry _ h

theorem upsert_salience_fixed {e : EntityProps} (h : e.salience ≠ "SUPPORTING")
    (ty d s : String) : (upsertEntityProps (some e) ty d s).salience = e.salience := by
  simp only [upsertEntityProps]
  rw [if_neg (fun hc => h hc.1)]

theorem create_entity_of_none {st : EntityStore} {doc name : String}
    (ty d s : String) (h : storeFind st (doc, name) = none) :
    create_entity st doc name ty d s =
      st ++ [((doc, name), upsertEntityProps none ty d s)] := by
  simp only [create_entity]; rw [h]

theorem create_entity_of_some {st : EntityStore} {doc name : String}
    {e : EntityProps} (ty d s : String) (h : storeFind st (doc, name) = some e) :
    create_entity st doc name ty d s =
      st.map (updEntry (doc, name) (upsertEntityProps (some e) ty d s)) := by
  simp only [create_entity]; rw [h]

/-! ## Claim C5 -/

/-- Claim C5: for every entity input (doc_id, name, type, description,
salience) and every starting store state, applying `create_entity` twice with
identical inputs yields the same stored state as applying it once
(`upsertEntity` is idempotent). -/
theorem create_entity_idempotent (st : EntityStore) (doc name ty d s : String) :
    create_entity (create_entity st doc name ty d s) doc name ty d s =
      create_entity st doc name ty d s := by
  cases h : storeFind st (doc, name) with
  | none =>
    rw [create_entity_of_none ty d s h]
    have h2 : storeFind (st ++ [((doc, name), upsertEntityProps none ty d s)])
        (doc, name) = some (upsertEntityProps none ty d s) :=
      storeFind_append_of_none _ h
    rw [create_entity_of_some ty d s h2]
    rw [show upsertEntityProps (some (upsertEntityProps none ty d s)) ty d s =
        upsertEntityProps none ty d s from upsertEntityProps_idem none ty d s]
    rw [List.map_append, map_updEntry_of_none _ h]
    simp [updEntry]
  | some e =>
    rw [create_entity_of_some ty d s h]
    have h2 : storeFind
        (st.map (updEntry (doc, name) (upsertEntityProps (some e) ty d s)))
        (doc, name) = some (upsertEntityProps (some e) ty d s) :=
      storeFind_map_updEntry _ h
    rw [create_entity_of_some ty d s h2]
    rw [show upsertEntityProps (some (upsertEntityProps (some e) ty d s)) ty d s =
        upsertEntityProps (some e) ty d s from upsertEntityProps_idem (some e) ty d s]
    rw [List.map_map]
    exact List.map_congr_left fun p _ => by
      simp only [Function.comp_apply, updEntry_updEntry]

/-! ## Claim C4 -/

/-- Claim C4: salience stored by `create_entity` only ever transitions from
SUPPORTING to CORE or from SUPPORTING to IMPORTANT; a stored CORE or
IMPORTANT salience never changes again under any further sequence of upserts
(in particular upserting CORE then SUPPORTING leaves CORE). -/
theorem create_entity_salience_monotone :
    (∀ (st : EntityStore) (doc name ty d s : String) (e : EntityProps),
      storeFind st (doc, name) = some e →
      salienceAt (create_entity st doc name ty d s) (doc, name) = some e.salience ∨
      (e.salience = "SUPPORTING" ∧ (s = "CORE" ∨ s = "IMPORTANT") ∧
        salienceAt (create_entity st doc name ty d s) (doc, name) = some s)) ∧
    (∀ (st : EntityStore) (doc name : String) (e : EntityProps),
      storeFind st (doc, name) = some e →
      e.salience = "CORE" ∨ e.salience = "IMPORTANT" →
      ∀ ops : List (String × String × String),
        salienceAt (ops.foldl (fun acc o => create_entity acc doc name o.1 o.2.1 o.2.2) st)
          (doc, name) = some e.salience) ∧
    salienceAt (create_entity (create_entity [] "doc-1" "E" "CONCEPT" "d" "CORE")
      "doc-1" "E" "CONCEPT" "d" "SUPPORTING") ("doc-1", "E") = some "CORE" := by
  refine ⟨?_, ?_, by decide⟩
  · intro st doc name ty d s e h
    have h2 := create_entity_find_of_some ty d s h
    unfold salienceAt
    rw [h2]
    by_cases hc : e.salience = "SUPPORTING" ∧ (s = "CORE" ∨ s = "IMPORTANT")
    · right
      refine ⟨hc.1, hc.2, ?_⟩
      simp [upsertEntityProps, hc]
    · left
      simp [upsertEntityProps, hc]
  · intro st doc name e h hci ops
    induction ops generalizing st e with
    | nil =>
      simp only [List.foldl_nil]
      unfold salienceAt
      rw [h]
      rfl
    | cons o t ih =>
      have hns : e.salience ≠ "SUPPORTING" := by
        rcases hci with hc | hc <;> rw [hc] <;> decide
      have h2 := create_entity_find_of_some o.1 o.2.1 o.2.2 h
      have h3 : (upsertEntityProps (some e) o.1 o.2.1 o.2.2).salience = e.salience :=
        upsert_salience_fixed hns _ _ _
      simp only [List.foldl_cons]
      rw [← h3]
      exact ih _ _ h2 (by rw [h3]; exact hci)

/-- Claim C4, witness: a concrete CORE entity keeps salience CORE across a
subsequent SUPPORTING upsert sequence. -/
theorem create_entity_salience_monotone_witness :
    salienceAt
      (([("T", "y", "SUPPORTING")] : List (String × String × String)).foldl
        (fun acc o => create_entity acc "d" "A" o.1 o.2.1 o.2.2)
        [(("d", "A"), ⟨"T", "x", "CORE"⟩)]) ("d", "A") = some "CORE" :=
  create_entity_salience_monotone.2.1 [(("d", "A"), ⟨"T", "x", "CORE"⟩)] "d" "A"
    ⟨"T", "x", "CORE"⟩ (by decide) (Or.inl rfl) [("T", "y", "SUPPORTING")]

/-! ## Claim C3 -/

/-- An allowed relationship type is already uppercase, so `pyUpper` fixes it. -/
theorem allowed_pyUpper_fixed {x : String} (h : ALLOWED_REL_TYPES.contains x = true) :
    pyUpper x = x := by
  have hm : x ∈ ALLOWED_REL_TYPES := by simpa using h
  simp only [ALLOWED_REL_TYPES, List.mem_cons, List.not_mem_nil, or_false] at hm
  rcases hm with h1 | h1 | h1 | h1 <;> subst h1 <;> decide

/-- Claim C3, counterexample: `create_relationship` with identical source and
target and an allowed type returns `true` and executes its `MERGE` write — it
does not return `false` on self-loops. -/
theorem create_relationship_selfloop_counterexample :
    create_relationship "A" "A" "DEFINES" "" = (true, some ⟨"A", "A", "DEFINES", ""⟩) ∧
    (create_relationship "A" "A" "DEFINES" "").1 ≠ false := by
  constructor
  · decide
  · decide

/-- Claim C3 (amended): `create_relationship` returns `false` with no graph
write exactly when the uppercased relationship type is outside the allowed
set; it performs its write and returns `true` for any names when the type is
allowed (even for self-loops).  The self-loop guard lives in the caller
`persist_extraction`, whose executed relationship writes never have equal
normalized endpoints and always carry an allowed type. -/
theorem create_relationship_policy :
    (∀ src tgt rt d, ALLOWED_REL_TYPES.contains (pyUpper rt) = false →
      create_relationship src tgt rt d = (false, none)) ∧
    (∀ src tgt rt d, ALLOWED_REL_TYPES.contains (pyUpper rt) = true →
      create_relationship src tgt rt d = (true, some ⟨src, tgt, pyUpper rt, d⟩)) ∧
    (∀ rels : List RelJson, ∀ w ∈ persistRelWrites rels,
      w.src ≠ w.tgt ∧ ALLOWED_REL_TYPES.contains w.relType = true) := by
  refine ⟨?_, ?_, ?_⟩
  · intro src tgt rt d h
    simp only [create_relationship]
    rw [h]
    simp
  · intro src tgt rt d h
    simp only [create_relationship]
    rw [h]
    simp
  · intro rels w hw
    unfold persistRelWrites at hw
    rw [List.mem_filterMap] at hw
    obtain ⟨r, _, hf⟩ := hw
    by_cases h1 : ALLOWED_REL_TYPES.contains (pyUpper (r.rtype.getD "")) = true
    · rw [if_pos h1] at hf
      by_cases h2 : normalize_name r.source = "" ∨ normalize_name r.target = "" ∨
          normalize_name r.source = normalize_name r.target
      · rw [if_pos h2] at hf
        exact absurd hf (by simp)
      · rw [if_neg h2] at hf
        simp only [create_relationship] at hf
        rw [allowed_pyUpper_fixed h1, if_pos h1] at hf
        have hw2 : w = ⟨normalize_name r.source, normalize_name r.target,
            pyUpper (r.rtype.getD ""), r.description.getD ""⟩ := by
          simpa using hf.symm
        push_neg at h2
        subst hw2
        exact ⟨h2.2.2, h1⟩
    · rw [if_neg h1] at hf
      exact absurd hf (by simp)

/-- Claim C3, witness: a disallowed type yields `(false, none)`. -/
theorem create_relationship_policy_witness :
    create_relationship "A" "B" "CAUSES" "" = (false, none) :=
  create_relationship_policy.1 "A" "B" "CAUSES" "" (by decide)

/-! ## Claim C9 -/

/-- Claim C9, counterexample: `"Group_24"` has a non-4-digit year, yet
`parse_column` accepts it as `("GROUP", "24")` rather than mapping it to
`(None, None)` — the year check is `isdigit`, not a 4-digit check. -/
theorem parse_column_counterexample :
    parse_column "Group_24" = (some "GROUP", some "24") ∧
    parse_column "Group_24" ≠ ((none, none) : Option String × Option String) := by
  constructor
  · decide
  · decide

/-- Accepted columns have an all-digits year and a GROUP/COMPANY scope. -/
theorem parse_column_accepted {col scope year : String}
    (h : parse_column col = (some scope, some year)) :
    pyIsDigit year = true ∧ (scope = "GROUP" ∨ scope = "COMPANY") := by
  simp only [parse_column] at h
  split_ifs at h with h1 h2 h3 <;> try simp at h
  obtain ⟨hs, hy⟩ := h
  subst hs
  subst hy
  exact ⟨by simpa using h2, by simpa using h3⟩

/-- Claim C9 (amended): `"Group_2024"` parses to `("GROUP", "2024")`;
`"Revenue_24"` parses to `(None, None)`; in general a column is rejected as
`(None, None)` unless it has an underscore, an all-digits (not necessarily
4-digit) year after the first underscore, and a GROUP/COMPANY scope; only
accepted columns enter the column metadata used for fact generation. -/
theorem parse_column_spec :
    parse_column "Group_2024" = (some "GROUP", some "2024") ∧
    parse_column "Revenue_24" = (none, none) ∧
    (∀ col : String, ('_' ∉ col.toList) → parse_column col = (none, none)) ∧
    (∀ col scope year, parse_column col = (some scope, some year) →
      pyIsDigit year = true ∧ (scope = "GROUP" ∨ scope = "COMPANY")) ∧
    (∀ columns : List String, ∀ entry ∈ buildColMeta columns,
      pyIsDigit entry.2.2 = true ∧ (entry.2.1 = "GROUP" ∨ entry.2.1 = "COMPANY")) := by
  refine ⟨by decide, by decide, ?_, ?_, ?_⟩
  · intro col h
    have hc : ¬ (col.toList.contains '_' = true) := by simpa using h
    simp only [parse_column]
    rw [if_neg hc]
  · intro col scope year h
    exact parse_column_accepted h
  · intro columns entry hentry
    unfold buildColMeta at hentry
    rw [List.mem_filterMap] at hentry
    obtain ⟨col, _, hf⟩ := hentry
    rcases hp : parse_column col with ⟨os, oy⟩
    rw [hp] at hf
    cases os with
    | none => cases oy <;> simp at hf
    | some scope =>
      cases oy with
      | none => simp at hf
      | some year =>
        simp only [Option.some.injEq] at hf
        have := parse_column_accepted hp
        rw [← hf]
        exact this

/-- Claim C9, witness: the general rejection rule applied to a concrete
underscore-free column. -/
theorem parse_column_spec_witness :
    parse_column "NoUnderscore" = (none, none) :=
  parse_column_spec.2.2.1 "NoUnderscore" (by decide)

/-! ## Claim C7 -/

/-- Claim C7: when the graph context fetch returns zero rows, `global_query_v5`
returns the fixed no-information answer with an empty reference list and never
invokes the generative backend (for every question and any would-be backend
response or community summaries). -/
theorem global_query_no_context (question llmAnswer : String)
    (communitySummaries : List String) :
    global_query_v5 question [] llmAnswer communitySummaries =
      (⟨question, "No relevant information found in the document graph.", []⟩, false) := by
  simp [global_query_v5]

/-! ## Claim C6 -/

/-- Claim C6: `detect_section_communities` on a graph with no sections reports
the empty result and persists nothing; with 15 sections and no edges it uses
small mode and persists exactly one fallback community holding all 15
sections with modularity 0; with 16 sections and 10 edges it reports
"skipped" in normal mode and persists nothing — all regardless of the Louvain
collaborator. -/
theorem detect_communities_modes :
    (∀ louvain, detect_section_communities ⟨[], []⟩ louvain = .empty) ∧
    (∀ (G : SectionGraph) louvain, G.nodes.length = 15 → G.edges = [] →
      detect_section_communities G louvain = .persisted "small" [(0, G.nodes)] 0) ∧
    (∀ (G : SectionGraph) louvain, G.nodes.length = 16 → G.edges.length = 10 →
      detect_section_communities G louvain = .skipped 16 10) := by
  refine ⟨fun louvain => rfl, ?_, ?_⟩
  · intro G louvain h1 h2
    simp [detect_section_communities, h1, h2]
  · intro G louvain h1 h2
    simp [detect_section_communities, h1, h2]

/-- Claim C6, witness: concrete 15-node edgeless and 16-node/10-edge graphs. -/
theorem detect_communities_modes_witness :
    detect_section_communities ⟨(List.range 15).map toString, []⟩ (fun _ => ([], 0)) =
      .persisted "small" [(0, (List.range 15).map toString)] 0 ∧
    detect_section_communities
      ⟨(List.range 16).map toString, (List.range 10).map (fun i => (toString i, "t", 1))⟩
      (fun _ => ([], 0)) = .skipped 16 10 :=
  ⟨detect_communities_modes.2.1 _ _ (by simp) rfl,
   detect_communities_modes.2.2 _ _ (by simp) (by simp)⟩

/-! ## Claim C2 -/

/-- Claim C2, counterexample: a payload violating the response schema (the
`entities` key holds a number, not a list) does not yield the fully empty
result — the valid `relationships` list is kept. -/
theorem extract_schema_violation_counterexample :
    (extract_entities_and_relationships "Revenue grew." false
      (.parsed (.obj [("entities", .num 5), ("relationships", .arr [.str "r"])]))).1.relationships
      = [Json.str "r"] ∧
    ([Json.str "r"] : List Json) ≠ [] := by
  exact ⟨rfl, by simp⟩

/-- Claim C2 (amended): `extract_entities_and_relationships` never propagates
an exception: an `is_empty` marker or whitespace-only text short-circuits to
the empty result without invoking the backend; any exception from the backend
or JSON parsing, and any non-object payload, yields the empty result; a
top-level key whose value is missing or not a list contributes the empty list
for that key only (the other key's truncated list is kept); and the result is
always bounded by 25 entities and 30 relationships. -/
theorem extract_failure_policy :
    (∀ text outcome,
      extract_entities_and_relationships text true outcome = (emptyExtraction, false)) ∧
    (∀ text outcome, (pyStrip text).isEmpty = true →
      extract_entities_and_relationships text false outcome = (emptyExtraction, false)) ∧
    (∀ text is_empty,
      (extract_entities_and_relationships text is_empty .exn).1 = emptyExtraction) ∧
    (∀ text is_empty (j : Json), (∀ fields, j ≠ Json.obj fields) →
      (extract_entities_and_relationships text is_empty (.parsed j)).1 = emptyExtraction) ∧
    (∀ text fields, (pyStrip text).isEmpty = false →
      (extract_entities_and_relationships text false (.parsed (.obj fields))).1 =
        ⟨(safe_list (Json.getKey (.obj fields) "entities")).take 25,
         (safe_list (Json.getKey (.obj fields) "relationships")).take 30⟩) ∧
    (∀ v : Option Json, (∀ xs, v ≠ some (Json.arr xs)) → safe_list v = []) ∧
    (∀ text is_empty outcome,
      (extract_entities_and_relationships text is_empty outcome).1.entities.length ≤ 25 ∧
      (extract_entities_and_relationships text is_empty outcome).1.relationships.length ≤ 30) := by
  refine ⟨?_, ?_, ?_, ?_, ?_, ?_, ?_⟩
  · intro text outcome
    simp [extract_entities_and_relationships]
  · intro text outcome h
    simp [extract_entities_and_relationships, h]
  · intro text is_empty
    by_cases h : (is_empty || (pyStrip text).isEmpty) = true
    · simp [extract_entities_and_relationships, h]
    · simp only [extract_entities_and_relationships, h]
      rfl
  · intro text is_empty j hj
    by_cases h : (is_empty || (pyStrip text).isEmpty) = true
    · simp [extract_entities_and_relationships, h]
    · cases j with
      | obj fields => exact absurd rfl (hj fields)
      | null => simp only [extract_entities_and_relationships, h]; rfl
      | bool b => simp only [extract_entities_and_relationships, h]; rfl
      | num n => simp only [extract_entities_and_relationships, h]; rfl
      | str s => simp only [extract_entities_and_relationships, h]; rfl
      | arr xs => simp only [extract_entities_and_relationships, h]; rfl
  · intro text fields h
    simp [extract_entities_and_relationships, h]
  · intro v hv
    match v with
    | none => rfl
    | some (.arr xs) => exact absurd rfl (hv xs)
    | some .null | some (.bool _) | some (.num _) | some (.str _) | some (.obj _) => rfl
  · intro text is_empty outcome
    unfold extract_entities_and_relationships
    split_ifs with h
    · simp [emptyExtraction]
    · cases outcome with
      | exn => simp [emptyExtraction]
      | parsed j =>
        cases j <;> simp [emptyExtraction]

/-- Claim C2, witness: whitespace-only text yields the empty result with no
backend invocation, for an arbitrary would-be outcome. -/
theorem extract_failure_policy_witness :
    extract_entities_and_relationships "  \t " false .exn = (emptyExtraction, false) :=
  extract_failure_policy.2.1 "  \t " .exn (by decide)

/-! ## Claim C1 -/

/-- When the requested chunk size respects the ceiling, the chunking loop
always succeeds and every chunk it produces has at most `chunk_size` tokens. -/
theorem chunkLoop_safe (tokens : List Nat) (cs ov : Nat) (hcs : cs ≤ MAX_CHUNK_SIZE)
    (start : Nat) :
    ∃ chunks, chunkLoop tokens cs ov start = .ok chunks ∧
      ∀ c ∈ chunks, c.length ≤ cs := by
  rw [chunkLoop]
  split
  · next h =>
    have hclen : ((tokens.drop start).take (min (start + cs) tokens.length - start)).length
        ≤ cs := by
      rw [List.length_take, List.length_drop]
      omega
    rw [if_neg (by omega : ¬ ((tokens.drop start).take
        (min (start + cs) tokens.length - start)).length > MAX_CHUNK_SIZE)]
    by_cases he : min (start + cs) tokens.length = tokens.length
    · rw [if_pos he]
      exact ⟨_, rfl, by simpa using hclen⟩
    · rw [if_neg he]
      obtain ⟨rest, hrest, hall⟩ := chunkLoop_safe tokens cs ov hcs
        (max (min (start + cs) tokens.length - ov) (start + 1))
      rw [hrest]
      refine ⟨_, rfl, ?_⟩
      intro c hc
      rcases List.mem_cons.mp hc with hc | hc
      · subst hc; exact hclen
      · exact hall c hc
  · exact ⟨[], rfl, by simp⟩
termination_by tokens.length - start
decreasing_by omega

/-- Claim C1, counterexample: a text whose whole token sequence has 801
tokens, chunked with `chunk_size = 801`, is returned as a single chunk of 801
tokens — above `MAX_CHUNK_SIZE = 800` — with no error raised, because the
early single-chunk return path performs no ceiling check. -/
theorem chunk_by_tokens_counterexample :
    chunk_by_tokens (List.replicate 801 0) 801 0 = .ok [List.replicate 801 0] ∧
    (List.replicate 801 0).length > MAX_CHUNK_SIZE := by
  have hl : (List.replicate 801 (0 : Nat)).length = 801 := List.length_replicate _ _
  constructor
  · unfold chunk_by_tokens
    rw [if_pos (by omega : (List.replicate 801 (0 : Nat)).length ≤ 801)]
  · rw [hl]
    norm_num [MAX_CHUNK_SIZE]

/-- Claim C1 (amended): whenever `chunk_size ≤ MAX_CHUNK_SIZE` (which the
configuration module enforces for the configured `CHUNK_SIZE` at load time),
`chunk_by_tokens` succeeds and every returned chunk has at most
`MAX_CHUNK_SIZE` tokens; when `chunk_size` exceeds the ceiling and the text
has more than `chunk_size` tokens, the call fails with the safety error; but
a text of at most `chunk_size` tokens is returned whole with no ceiling
check, so only that single-chunk path can exceed the ceiling. -/
theorem chunk_by_tokens_ceiling :
    (∀ (tokens : List Nat) (cs ov : Nat), cs ≤ MAX_CHUNK_SIZE →
      ∃ chunks, chunk_by_tokens tokens cs ov = .ok chunks ∧
        ∀ c ∈ chunks, c.length ≤ MAX_CHUNK_SIZE) ∧
    (∀ (tokens : List Nat) (cs ov : Nat), MAX_CHUNK_SIZE < cs →
      cs < tokens.length →
      chunk_by_tokens tokens cs ov =
        .error "Chunk exceeds MAX_CHUNK_SIZE safety limit") := by
  constructor
  · intro tokens cs ov hcs
    unfold chunk_by_tokens
    split_ifs with h
    · exact ⟨[tokens], rfl, by intro c hc; simp at hc; subst hc; omega⟩
    · obtain ⟨chunks, hok, hall⟩ := chunkLoop_safe tokens cs ov hcs 0
      exact ⟨chunks, hok, fun c hc => le_trans (hall c hc) hcs⟩
  · intro tokens cs ov hmax hlen
    unfold chunk_by_tokens
    rw [if_neg (by omega)]
    rw [chunkLoop]
    rw [dif_pos (by omega : 0 < tokens.length)]
    rw [if_pos]
    rw [List.length_take, List.length_drop]
    omega

/-- Claim C1, witness: a concrete in-ceiling chunking and a concrete
over-ceiling failure. -/
theorem chunk_by_tokens_ceiling_witness :
    (∃ chunks, chunk_by_tokens [1, 2, 3] 2 1 = .ok chunks ∧
      ∀ c ∈ chunks, c.length ≤ MAX_CHUNK_SIZE) ∧
    chunk_by_tokens (List.replicate 802 0) 801 0 =
      .error "Chunk exceeds MAX_CHUNK_SIZE safety limit" :=
  ⟨chunk_by_tokens_ceiling.1 [1, 2, 3] 2 1 (by decide),
   chunk_by_tokens_ceiling.2 (List.replicate 802 0) 801 0 (by decide)
     (by rw [List.length_replicate]; omega)⟩

/-! ## Claim C8 -/

/-- The boolean substring test agrees with `List.IsInfix`. -/
theorem infixB_iff (n : List Char) : ∀ h : List Char, infixB n h = true ↔ n <:+: h := by
  intro h
  induction h with
  | nil =>
    simp only [infixB, List.isEmpty_iff, List.infix_nil]
  | cons c t ih =>
    simp only [infixB, Bool.or_eq_true, List.isPrefixOf_iff_prefix, ih,
      List.infix_cons_iff]

/-- Every match window is an infix of the lowercased text. -/
theorem matchWindow_sub (cs : List Char) (s e : Nat) :
    matchWindow cs s e <:+: cs.map Char.toLower := by
  unfold matchWindow
  rw [List.map_take, List.map_drop]
  exact (List.take_prefix _ _).isInfix.trans (List.drop_suffix _ _).isInfix

theorem flatMap_eq_nil_of {α β : Type} (l : List α) (f : α → List β)
    (h : ∀ p ∈ l, f p = []) : l.flatMap f = [] := by
  induction l with
  | nil => rfl
  | cons p t ih =>
    rw [List.flatMap_cons, h p (by simp), List.nil_append]
    exact ih fun q hq => h q (by simp [hq])

/-- Claim C8, counterexample: for the string `"see Table 2 for details"` the
window contains `"details"` but not the cue keyword `"detailed"`, so the one
TABLE reference is classified REFERENCED_IN, not DETAILED_IN as claimed. -/
theorem reference_reason_counterexample :
    (extract_cross_section_references "see Table 2 for details" "s1" "d1").map
      (fun r => r.reason) = ["REFERENCED_IN"] ∧
    (¬ ∃ r ∈ extract_cross_section_references "see Table 2 for details" "s1" "d1",
      r.reason = "DETAILED_IN") := by
  constructor
  · decide
  · decide

/-- Claim C8 (amended): a locator match is kept only if the ±60-character
window around it contains a disclosure cue word (in particular a text with no
cue word anywhere yields no references); the reason is classified by keyword
priority defined > detailed/explained/described > default referenced;
`"Total assets were 42."` yields zero references; and
`"see Table 2 for details"` yields exactly one TABLE-type reference — whose
reason is REFERENCED_IN, because the window word `"details"` does not contain
the keyword `"detailed"`. -/
theorem reference_gate_spec :
    (∀ text sid did : String,
      (∀ cue ∈ cueWords, infixB cue (text.toList.map Char.toLower) = false) →
      extract_cross_section_references text sid did = []) ∧
    (∀ context : List Char,
      (infixB "defined".toList context = true →
        infer_reference_reason context = "DEFINED_IN") ∧
      (infixB "defined".toList context = false →
        (infixB "detailed".toList context = true ∨
         infixB "explained".toList context = true ∨
         infixB "described".toList context = true) →
        infer_reference_reason context = "DETAILED_IN") ∧
      (infixB "defined".toList context = false →
        infixB "detailed".toList context = false →
        infixB "explained".toList context = false →
        infixB "described".toList context = false →
        infer_reference_reason context = "REFERENCED_IN")) ∧
    extract_cross_section_references "Total assets were 42." "s1" "d1" = [] ∧
    extract_cross_section_references "see Table 2 for details" "s1" "d1" =
      [⟨"d1:s1:TABLE:2", "TABLE", "2", "s1", "d1", "REFERENCED_IN"⟩] := by
  refine ⟨?_, ?_, by decide, by decide⟩
  · intro text sid did hcue
    unfold extract_cross_section_references
    rw [flatMap_eq_nil_of _ _ ?_]
    · rfl
    intro p _
    rw [List.filterMap_eq_nil_iff]
    intro m _
    simp only [refOfMatch]
    rw [if_neg ?_]
    intro hany
    rw [List.any_eq_true] at hany
    obtain ⟨cue, hcuein, hcueinf⟩ := hany
    have h1 : cue <:+: matchWindow text.toList m.1 m.2.1 := (infixB_iff _ _).mp hcueinf
    have h2 := (infixB_iff cue (text.toList.map Char.toLower)).mpr
      (h1.trans (matchWindow_sub text.toList m.1 m.2.1))
    rw [hcue cue hcuein] at h2
    exact Bool.false_ne_true h2
  · intro context
    refine ⟨?_, ?_, ?_⟩
    · intro h
      simp only [infer_reference_reason]
      rw [if_pos h]
    · intro h1 h2
      have hc : (["detailed".toList, "explained".toList, "described".toList].any
          (fun k => infixB k context)) = true := by
        rw [List.any_eq_true]
        rcases h2 with h | h | h
        · exact ⟨"detailed".toList, by simp, h⟩
        · exact ⟨"explained".toList, by simp, h⟩
        · exact ⟨"described".toList, by simp, h⟩
      simp only [infer_reference_reason]
      rw [if_neg (by simpa using h1), if_pos hc]
    · intro h1 h2 h3 h4
      have hc : ¬ ((["detailed".toList, "explained".toList, "described".toList].any
          (fun k => infixB k context)) = true) := by
        rw [List.any_eq_true]
        rintro ⟨k, hk, hinf⟩
        simp only [List.mem_cons, List.not_mem_nil, or_false] at hk
        rcases hk with rfl | rfl | rfl
        · rw [h2] at hinf; exact Bool.false_ne_true hinf
        · rw [h3] at hinf; exact Bool.false_ne_true hinf
        · rw [h4] at hinf; exact Bool.false_ne_true hinf
      simp only [infer_reference_reason]
      rw [if_neg (by simpa using h1), if_neg hc]

/-- Claim C8, witness: the cue gate applied to a concrete cue-free text. -/
theorem reference_gate_spec_witness :
    extract_cross_section_references "Total liabilities rose in table form." "s2" "d2" = [] :=
  reference_gate_spec.1 "Total liabilities rose in table form." "s2" "d2" (by decide)

/-! ## Claim C10: scanner predicates over character lists -/

/-- Is this character a newline? -/
def isNL (c : Char) : Bool := c = '\n'

/-- Whitespace other than a newline (the characters `rstrip` can delete
inside a normalized text). -/
def wsNotNL (c : Char) : Bool := pyWS c && !(c = '\n')

/-- Does the list contain two adjacent characters satisfying `f` then `g`? -/
def hasPair (f g : Char → Bool) : List Char → Bool
  | a :: b :: t => (f a && g b) || hasPair f g (b :: t)
  | _ => false

/-- Does the list contain three adjacent characters all satisfying `f`? -/
def hasTriple (f : Char → Bool) : List Char → Bool
  | a :: b :: c :: t => (f a && f b && f c) || hasTriple f (b :: c :: t)
  | _ => false

theorem hasPair_cons_eq (f g : Char → Bool) (a : Char) (w : List Char) :
    hasPair f g (a :: w) =
      ((match w.head? with | some b => f a && g b | none => false) || hasPair f g w) := by
  cases w with
  | nil => rfl
  | cons b t => rfl

theorem hasTriple_cons_eq (f : Char → Bool) (a : Char) (w : List Char) :
    hasTriple f (a :: w) =
      ((match w with | b :: c :: _ => f a && f b && f c | _ => false) || hasTriple f w) := by
  cases w with
  | nil => rfl
  | cons b t => cases t with
    | nil => rfl
    | cons c t' => rfl

theorem hasPair_tail {f g : Char → Bool} {a : Char} {w : List Char}
    (h : hasPair f g (a :: w) = false) : hasPair f g w = false := by
  rw [hasPair_cons_eq, Bool.or_eq_false_iff] at h
  exact h.2

theorem hasTriple_tail {f : Char → Bool} {a : Char} {w : List Char}
    (h : hasTriple f (a :: w) = false) : hasTriple f w = false := by
  rw [hasTriple_cons_eq, Bool.or_eq_false_iff] at h
  exact h.2

theorem hasPair_cons_of_fst_false {f g : Char → Bool} {a : Char} (w : List Char)
    (ha : f a = false) : hasPair f g (a :: w) = hasPair f g w := by
  rw [hasPair_cons_eq]
  cases w with
  | nil => simp [ha]
  | cons b t => simp [ha]

theorem hasTriple_cons₁ {f : Char → Bool} {a : Char} (w : List Char)
    (ha : f a = false) : hasTriple f (a :: w) = hasTriple f w := by
  rw [hasTriple_cons_eq]
  cases w with
  | nil => simp
  | cons b t => cases t with
    | nil => simp
    | cons c t' => simp [ha]

theorem hasTriple_cons₂ {f : Char → Bool} {a b : Char} (t : List Char)
    (hb : f b = false) : hasTriple f (a :: b :: t) = hasTriple f (b :: t) := by
  cases t with
  | nil => rfl
  | cons c t' => simp [hasTriple, hb]

theorem hasTriple_cons₃ {f : Char → Bool} {a b c : Char} (t : List Char)
    (hc : f c = false) : hasTriple f (a :: b :: c :: t) = hasTriple f (b :: c :: t) := by
  simp [hasTriple, hc]

theorem hasPair_append_left {f g : Char → Bool} :
    ∀ (xs ys : List Char), hasPair f g (xs ++ ys) = false → hasPair f g ys = false := by
  intro xs
  induction xs with
  | nil => intro ys h; exact h
  | cons a t ih => intro ys h; exact ih ys (hasPair_tail h)

theorem hasTriple_append_left {f : Char → Bool} :
    ∀ (xs ys : List Char), hasTriple f (xs ++ ys) = false → hasTriple f ys = false := by
  intro xs
  induction xs with
  | nil => intro ys h; exact h
  | cons a t ih => intro ys h; exact ih ys (hasTriple_tail h)

theorem hasPair_append_right {f g : Char → Bool} :
    ∀ (xs ys : List Char), hasPair f g (xs ++ ys) = false → hasPair f g xs = false := by
  intro xs
  induction xs with
  | nil => intro ys _; rfl
  | cons a t ih =>
    intro ys h
    rw [List.cons_append, hasPair_cons_eq, Bool.or_eq_false_iff] at h
    rw [hasPair_cons_eq, Bool.or_eq_false_iff]
    refine ⟨?_, ih ys h.2⟩
    cases t with
    | nil => rfl
    | cons b t' => exact h.1

theorem hasTriple_append_right {f : Char → Bool} :
    ∀ (xs ys : List Char), hasTriple f (xs ++ ys) = false → hasTriple f xs = false := by
  intro xs
  induction xs with
  | nil => intro ys _; rfl
  | cons a t ih =>
    intro ys h
    rw [List.cons_append, hasTriple_cons_eq, Bool.or_eq_false_iff] at h
    rw [hasTriple_cons_eq, Bool.or_eq_false_iff]
    refine ⟨?_, ih ys h.2⟩
    cases t with
    | nil => rfl
    | cons b t' => cases t' with
      | nil => rfl
      | cons c t'' => exact h.1

theorem hasPair_infix_false {f g : Char → Bool} {v u : List Char}
    (hinf : v <:+: u) (hu : hasPair f g u = false) : hasPair f g v = false := by
  obtain ⟨pre, post, rfl⟩ := hinf
  exact hasPair_append_right v post (hasPair_append_left pre (v ++ post) (by
    rw [List.append_assoc] at hu; exact hu))

theorem hasTriple_infix_false {f : Char → Bool} {v u : List Char}
    (hinf : v <:+: u) (hu : hasTriple f u = false) : hasTriple f v = false := by
  obtain ⟨pre, post, rfl⟩ := hinf
  exact hasTriple_append_right v post (hasTriple_append_left pre (v ++ post) (by
    rw [List.append_assoc] at hu; exact hu))

theorem hasPair_append_false {f g : Char → Bool} :
    ∀ (xs ys : List Char), hasPair f g xs = false → hasPair f g ys = false →
    (∀ x, xs.getLast? = some x → ∀ y, ys.head? = some y → (f x && g y) = false) →
    hasPair f g (xs ++ ys) = false := by
  intro xs
  induction xs with
  | nil => intro ys _ hy _; exact hy
  | cons a t ih =>
    intro ys hx hy hb
    rw [List.cons_append, hasPair_cons_eq, Bool.or_eq_false_iff]
    constructor
    · cases ht : t with
      | nil =>
        simp only [List.nil_append]
        cases hys : ys.head? with
        | none => rfl
        | some y => exact hb a (by simp [ht]) y hys
      | cons b t' =>
        subst ht
        rw [hasPair_cons_eq, Bool.or_eq_false_iff] at hx
        simpa using hx.1
    · refine ih ys (hasPair_tail hx) hy ?_
      intro x hx2 y hy2
      refine hb x ?_ y hy2
      cases t with
      | nil => simp at hx2
      | cons b t' => rw [List.getLast?_cons_cons]; exact hx2

theorem hasPair_false_of_no_g {f g : Char → Bool} :
    ∀ w : List Char, (∀ b ∈ w, g b = false) → hasPair f g w = false := by
  intro w
  induction w with
  | nil => intro _; rfl
  | cons a t ih =>
    intro h
    rw [hasPair_cons_eq, Bool.or_eq_false_iff]
    refine ⟨?_, ih fun b hb => h b (by simp [hb])⟩
    cases t with
    | nil => rfl
    | cons b t' => simp [h b (by simp)]

theorem hasPair_false_of_no_f {f g : Char → Bool} :
    ∀ w : List Char, (∀ a ∈ w, f a = false) → hasPair f g w = false := by
  intro w
  induction w with
  | nil => intro _; rfl
  | cons a t ih =>
    intro h
    rw [hasPair_cons_of_fst_false _ (h a (by simp))]
    exact ih fun b hb => h b (by simp [hb])

theorem getLast?_cons_of_ne_nil {a : Char} {l : List Char} (h : l ≠ []) :
    (a :: l).getLast? = l.getLast? := by
  cases l with
  | nil => exact absurd rfl h
  | cons b t => exact List.getLast?_cons_cons

theorem hasTriple_prepend_false {f : Char → Bool} :
    ∀ (e w : List Char), (∀ x ∈ e, f x = false) → hasTriple f w = false →
    hasTriple f (e ++ w) = false := by
  intro e
  induction e with
  | nil => intro w _ hw; exact hw
  | cons a t ih =>
    intro w h hw
    rw [List.cons_append, hasTriple_cons₁ _ (h a (by simp))]
    exact ih w (fun x hx => h x (by simp [hx])) hw

/-! ## Claim C10: properties of collapseNL -/

theorem getLast?_replicate_nl (m : Nat) :
    (List.replicate m '\n').getLast? = if m = 0 then none else some '\n' := by
  induction m with
  | zero => rfl
  | succ n ih =>
    rw [List.replicate_succ', List.getLast?_concat]
    simp

theorem collapseNLAux_ne_nil : ∀ (u : List Char) (k : Nat), u ≠ [] →
    collapseNLAux k u ≠ [] := by
  intro u
  induction u with
  | nil => intro k h; exact absurd rfl h
  | cons a rest ih =>
    intro k _
    simp only [collapseNLAux]
    split_ifs with ha
    · cases hr : rest with
      | nil =>
        simp only [collapseNLAux]
        have hm : min (k + 1) 2 = 1 ∨ min (k + 1) 2 = 2 := by omega
        rcases hm with hm | hm <;> rw [hm] <;> simp
      | cons b t => exact hr ▸ ih (k + 1) (by rw [hr]; simp)
    · simp

theorem collapseNLAux_head_pos : ∀ (u : List Char) (k : Nat), 1 ≤ k →
    ∀ c, (collapseNLAux k u).head? = some c → c = '\n' := by
  intro u
  induction u with
  | nil =>
    intro k hk c hc
    simp only [collapseNLAux] at hc
    have hm : min k 2 = 1 ∨ min k 2 = 2 := by omega
    rcases hm with hm | hm <;> rw [hm] at hc <;> simpa using hc.symm
  | cons a rest ih =>
    intro k hk c hc
    simp only [collapseNLAux] at hc
    split_ifs at hc with ha
    · exact ih (k + 1) (by omega) c hc
    · have hm : min k 2 = 1 ∨ min k 2 = 2 := by omega
      rcases hm with hm | hm <;> rw [hm] at hc <;> simpa using hc.symm

theorem collapseNLAux_head_zero : ∀ (u : List Char), ∀ c,
    (collapseNLAux 0 u).head? = some c → u.head? = some c := by
  intro u
  induction u with
  | nil => intro c hc; simp [collapseNLAux] at hc
  | cons a rest _ =>
    intro c hc
    simp only [collapseNLAux] at hc
    split_ifs at hc with ha
    · have := collapseNLAux_head_pos rest 1 (by omega) c hc
      subst ha
      simp [this]
    · simp only [Nat.min_eq_left (by omega : (0:Nat) ≤ 2), List.replicate_zero,
        List.nil_append, List.head?_cons, Option.some.injEq] at hc
      simp [hc]

theorem collapseNL_tripleFree : ∀ (u : List Char) (k : Nat),
    hasTriple isNL (collapseNLAux k u) = false := by
  intro u
  induction u with
  | nil =>
    intro k
    simp only [collapseNLAux]
    have hm : min k 2 = 0 ∨ min k 2 = 1 ∨ min k 2 = 2 := by omega
    rcases hm with hm | hm | hm <;> rw [hm] <;> rfl
  | cons a rest ih =>
    intro k
    simp only [collapseNLAux]
    split_ifs with ha
    · exact ih (k + 1)
    · have hna : isNL a = false := by simp [isNL, ha]
      have hm : min k 2 = 0 ∨ min k 2 = 1 ∨ min k 2 = 2 := by omega
      rcases hm with hm | hm | hm <;> rw [hm]
      · simpa [hasTriple_cons₁ _ hna] using ih 0
      · show hasTriple isNL ('\n' :: a :: collapseNLAux 0 rest) = false
        rw [hasTriple_cons₂ _ hna, hasTriple_cons₁ _ hna]
        exact ih 0
      · show hasTriple isNL ('\n' :: '\n' :: a :: collapseNLAux 0 rest) = false
        rw [hasTriple_cons₃ _ hna, hasTriple_cons₂ _ hna, hasTriple_cons₁ _ hna]
        exact ih 0

theorem collapseNLAux_id : ∀ (u : List Char) (k : Nat), k ≤ 2 →
    hasTriple isNL (List.replicate k '\n' ++ u) = false →
    collapseNLAux k u = List.replicate k '\n' ++ u := by
  intro u
  induction u with
  | nil =>
    intro k hk _
    simp only [collapseNLAux, Nat.min_eq_left hk, List.append_nil]
  | cons a rest ih =>
    intro k hk h
    simp only [collapseNLAux]
    split_ifs with ha
    · subst ha
      have hk1 : k ≤ 1 := by
        by_contra hgt
        have hk2 : k = 2 := by omega
        subst hk2
        simp [hasTriple, isNL] at h
      have hre : List.replicate (k + 1) '\n' ++ rest =
          List.replicate k '\n' ++ '\n' :: rest := by
        rw [List.replicate_succ', List.append_assoc]
        rfl
      rw [ih (k + 1) (by omega) (by rw [hre]; exact h), hre]
    · have hrest : hasTriple isNL rest = false :=
        hasTriple_tail (hasTriple_append_left _ _ h)
      rw [Nat.min_eq_left hk, ih 0 (by omega) (by simpa using hrest)]
      simp

theorem collapseNL_pair_hws : ∀ (u : List Char) (k : Nat),
    hasPair hws hws u = false → hasPair hws hws (collapseNLAux k u) = false := by
  intro u
  induction u with
  | nil =>
    intro k _
    exact hasPair_false_of_no_g _ fun b hb => by
      rw [List.eq_of_mem_replicate hb]; rfl
  | cons a rest ih =>
    intro k hu
    simp only [collapseNLAux]
    split_ifs with ha
    · exact ih (k + 1) (hasPair_tail hu)
    · refine hasPair_append_false _ _ ?_ ?_ ?_
      · exact hasPair_false_of_no_g _ fun b hb => by
          rw [List.eq_of_mem_replicate hb]; rfl
      · rw [hasPair_cons_eq, Bool.or_eq_false_iff]
        refine ⟨?_, ih 0 (hasPair_tail hu)⟩
        cases hh : (collapseNLAux 0 rest).head? with
        | none => rfl
        | some y =>
          have hy := collapseNLAux_head_zero rest y hh
          rw [hasPair_cons_eq, Bool.or_eq_false_iff] at hu
          cases hrest : rest with
          | nil => rw [hrest] at hy; simp at hy
          | cons b t =>
            rw [hrest] at hy
            simp only [List.head?_cons, Option.some.injEq] at hy
            subst hy
            rw [hrest] at hu
            simpa using hu.1
      · intro x hx y _
        rw [getLast?_replicate_nl] at hx
        split_ifs at hx
        have hx2 : x = '\n' := by simpa using hx.symm
        subst hx2
        rfl

theorem collapseNL_pair_wsnl : ∀ (u : List Char) (k : Nat),
    hasPair wsNotNL isNL u = false →
    hasPair wsNotNL isNL (collapseNLAux k u) = false := by
  intro u
  induction u with
  | nil =>
    intro k _
    refine hasPair_false_of_no_f _ fun b hb => by
      rw [List.eq_of_mem_replicate hb]; rfl
  | cons a rest ih =>
    intro k hu
    simp only [collapseNLAux]
    split_ifs with ha
    · exact ih (k + 1) (hasPair_tail hu)
    · refine hasPair_append_false _ _ ?_ ?_ ?_
      · exact hasPair_false_of_no_f _ fun b hb => by
          rw [List.eq_of_mem_replicate hb]; rfl
      · rw [hasPair_cons_eq, Bool.or_eq_false_iff]
        refine ⟨?_, ih 0 (hasPair_tail hu)⟩
        cases hh : (collapseNLAux 0 rest).head? with
        | none => rfl
        | some y =>
          by_cases hy : isNL y = true
          · have hy2 : y = '\n' := by simpa [isNL] using hy
            subst hy2
            have hrh := collapseNLAux_head_zero rest '\n' hh
            rw [hasPair_cons_eq, Bool.or_eq_false_iff] at hu
            cases hrest : rest with
            | nil => rw [hrest] at hrh; simp at hrh
            | cons b t =>
              rw [hrest] at hrh hu
              simp only [List.head?_cons, Option.some.injEq] at hrh
              subst hrh
              have h1 := hu.1
              simp only [List.head?_cons] at h1
              simpa using h1
          · have hy2 : isNL y = false := by simpa using hy
            simp [hy2]
      · intro x hx y _
        rw [getLast?_replicate_nl] at hx
        split_ifs at hx
        have hx2 : x = '\n' := by simpa using hx.symm
        subst hx2
        rfl

theorem collapseNL_getLast : ∀ (u : List Char) (k : Nat), u ≠ [] →
    (∀ c, u.getLast? = some c → pyWS c = false) →
    ∀ c, (collapseNLAux k u).getLast? = some c → pyWS c = false := by
  intro u
  induction u with
  | nil => intro k h; exact absurd rfl h
  | cons a rest ih =>
    intro k _ hlast c hc
    simp only [collapseNLAux] at hc
    split_ifs at hc with ha
    · cases hrest : rest with
      | nil =>
        subst ha
        have := hlast '\n' (by rw [hrest]; rfl)
        simp [pyWS] at this
      | cons b t =>
        refine ih k.succ (by simp [hrest]) ?_ c (hrest ▸ hc)
        intro x hx
        refine hlast x ?_
        rw [hrest] at hx ⊢
        rw [List.getLast?_cons_cons]
        exact hx
    · cases hrest : rest with
      | nil =>
        subst hrest
        have hc2 : a = c := by simpa [collapseNLAux] using hc
        subst hc2
        exact hlast a rfl
      | cons b t =>
        have hne : collapseNLAux 0 rest ≠ [] := by
          rw [hrest]; exact collapseNLAux_ne_nil _ 0 (by simp)
        rw [List.getLast?_append_of_ne_nil _ (by simp : a :: collapseNLAux 0 rest ≠ []),
          getLast?_cons_of_ne_nil hne] at hc
        refine ih 0 (by rw [hrest]; simp) ?_ c hc
        intro x hx
        refine hlast x ?_
        rw [hrest] at hx ⊢
        rw [List.getLast?_cons_cons]
        exact hx

/-! ## Claim C10: properties of collapseHWS -/

theorem hasPair_extract {f g : Char → Bool} :
    ∀ (l : List Char) (a b : Char) (r : List Char),
    hasPair f g (l ++ a :: b :: r) = false → (f a && g b) = false := by
  intro l
  induction l with
  | nil =>
    intro a b r h
    rw [List.nil_append, hasPair_cons_eq, Bool.or_eq_false_iff] at h
    simpa using h.1
  | cons x t ih =>
    intro a b r h
    exact ih a b r (hasPair_tail h)

theorem collapseHWSAux_id : ∀ (u run : List Char), (∀ x ∈ run, hws x = true) →
    run.length ≤ 1 → hasPair hws hws (run ++ u) = false →
    collapseHWSAux run u = run ++ u := by
  intro u
  induction u with
  | nil =>
    intro run hall hlen _
    simp only [collapseHWSAux, List.append_nil]
    match run, hlen with
    | [], _ => rfl
    | [c], _ => rfl
  | cons c rest ih =>
    intro run hall hlen hp
    simp only [collapseHWSAux]
    split_ifs with hc
    · have hrun : run = [] := by
        match run, hlen with
        | [], _ => rfl
        | [x], _ =>
          exfalso
          have hx : hws x = true := hall x (by simp)
          have := hasPair_extract [] x c rest (by simpa using hp)
          rw [hx, hc] at this
          simp at this
      subst hrun
      have hres := ih [c] (by simpa using hc) (by simp) (by simpa using hp)
      simpa using hres
    · have hc' : hws c = false := by simpa using hc
      have hrest : hasPair hws hws rest = false :=
        hasPair_tail (hasPair_append_left run _ hp)
      rw [ih [] (by simp) (by simp) (by simpa using hrest)]
      match run, hlen with
      | [], _ => rfl
      | [x], _ => rfl

theorem collapseHWS_pairFree : ∀ (u run : List Char), (∀ x ∈ run, hws x = true) →
    hasPair hws hws (collapseHWSAux run u) = false := by
  intro u
  induction u with
  | nil =>
    intro run _
    simp only [collapseHWSAux]
    match run with
    | [] => rfl
    | [c] => rfl
    | x :: y :: r => rfl
  | cons c rest ih =>
    intro run hall
    simp only [collapseHWSAux]
    split_ifs with hc
    · refine ih (run ++ [c]) ?_
      intro x hx
      rcases List.mem_append.mp hx with hx | hx
      · exact hall x hx
      · simp only [List.mem_singleton] at hx
        subst hx
        simpa using hc
    · have hc' : hws c = false := by simpa using hc
      have htail : hasPair hws hws (c :: collapseHWSAux [] rest) = false := by
        rw [hasPair_cons_of_fst_false _ hc']
        exact ih [] (by simp)
      match run with
      | [] => simpa using htail
      | [x] =>
        simp only [emitHWS, List.cons_append, List.nil_append]
        rw [hasPair_cons_eq, Bool.or_eq_false_iff]
        exact ⟨by simp [hc'], htail⟩
      | x :: y :: r =>
        simp only [emitHWS, List.cons_append, List.nil_append]
        rw [hasPair_cons_eq, Bool.or_eq_false_iff]
        exact ⟨by simp [hc'], htail⟩

/-! ## Claim C10: lines, join and strip -/

theorem head?_dropWhile {p : Char → Bool} :
    ∀ (l : List Char) (c : Char), (l.dropWhile p).head? = some c → p c = false := by
  intro l
  induction l with
  | nil => intro c h; simp [List.dropWhile] at h
  | cons a t ih =>
    intro c h
    by_cases ha : p a = true
    · rw [List.dropWhile_cons_of_pos ha] at h
      exact ih c h
    · rw [List.dropWhile_cons_of_neg ha] at h
      simp only [List.head?_cons, Option.some.injEq] at h
      subst h
      simpa using ha

theorem getLast?_dropWhile_of_ne_nil {p : Char → Bool} {l : List Char}
    (h : l.dropWhile p ≠ []) : (l.dropWhile p).getLast? = l.getLast? := by
  obtain ⟨pre, hpre⟩ := List.dropWhile_suffix (l := l) p
  conv_rhs => rw [← hpre]
  exact (List.getLast?_append_of_ne_nil _ h).symm

theorem rstripLine_eq_self {l : List Char}
    (h : ∀ c, l.getLast? = some c → pyWS c = false) : rstripLine l = l := by
  unfold rstripLine
  cases hrev : l.reverse with
  | nil =>
    have : l = [] := List.reverse_eq_nil_iff.mp hrev
    subst this
    rfl
  | cons x r =>
    have hx : l.getLast? = some x := by
      rw [← List.head?_reverse, hrev]
      rfl
    rw [List.dropWhile_cons_of_neg (by simp [h x hx])]
    rw [← hrev, List.reverse_reverse]

theorem rstripLine_getLast {l : List Char} :
    ∀ c, (rstripLine l).getLast? = some c → pyWS c = false := by
  intro c hc
  unfold rstripLine at hc
  rw [List.getLast?_reverse] at hc
  exact head?_dropWhile _ c hc

theorem rstripLine_pre (l : List Char) : rstripLine l <+: l := by
  unfold rstripLine
  have h1 : l.reverse.dropWhile pyWS <:+ l.reverse := List.dropWhile_suffix pyWS
  have h2 := h1.reverse
  rwa [List.reverse_reverse] at h2

theorem splitLinesAux_ne_nil : ∀ (u cur : List Char), u ≠ [] →
    splitLinesAux cur u ≠ [] := by
  intro u
  induction u with
  | nil => intro cur h; exact absurd rfl h
  | cons c rest ih =>
    intro cur _
    simp only [splitLinesAux]
    split_ifs with hc
    · simp
    · cases hrest : rest with
      | nil => simp [splitLinesAux]
      | cons b t => exact hrest ▸ ih (c :: cur) (by rw [hrest]; simp)

theorem splitLines_noNL : ∀ (u cur : List Char), '\n' ∉ cur →
    ∀ l ∈ splitLinesAux cur u, '\n' ∉ l := by
  intro u
  induction u with
  | nil =>
    intro cur hcur l hl
    simp only [splitLinesAux] at hl
    split_ifs at hl with h
    · simp at hl
    · simp only [List.mem_singleton] at hl
      subst hl
      simpa using hcur
  | cons c rest ih =>
    intro cur hcur l hl
    simp only [splitLinesAux] at hl
    split_ifs at hl with hc
    · rcases List.mem_cons.mp hl with hl | hl
      · subst hl; simpa using hcur
      · exact ih [] (by simp) l hl
    · exact ih (c :: cur) (by simp [hcur, Ne.symm hc]) l hl

theorem splitLines_sub : ∀ (u cur : List Char),
    ∀ l ∈ splitLinesAux cur u, l <:+: cur.reverse ++ u := by
  intro u
  induction u with
  | nil =>
    intro cur l hl
    simp only [splitLinesAux] at hl
    split_ifs at hl with h
    · simp at hl
    · simp only [List.mem_singleton] at hl
      subst hl
      simp
  | cons c rest ih =>
    intro cur l hl
    simp only [splitLinesAux] at hl
    split_ifs at hl with hc
    · subst hc
      rcases List.mem_cons.mp hl with hl | hl
      · subst hl
        exact (List.prefix_append _ _).isInfix
      · have h1 := ih [] l hl
        simp only [List.reverse_nil, List.nil_append] at h1
        refine h1.trans ?_
        have : cur.reverse ++ '\n' :: rest = (cur.reverse ++ ['\n']) ++ rest := by
          simp
        rw [this]
        exact (List.suffix_append _ _).isInfix
    · have h1 := ih (c :: cur) l hl
      simpa [List.append_assoc] using h1

theorem joinNL_cons_cons (l b : List Char) (t : List (List Char)) :
    joinNL (l :: b :: t) = l ++ '\n' :: joinNL (b :: t) := rfl

theorem joinNL_splitLines : ∀ (u cur : List Char),
    (cur.reverse ++ u).getLast? ≠ some '\n' →
    joinNL (splitLinesAux cur u) = cur.reverse ++ u := by
  intro u
  induction u with
  | nil =>
    intro cur _
    simp only [splitLinesAux]
    split_ifs with h
    · have : cur = [] := by simpa using h
      subst this
      rfl
    · simp [joinNL]
  | cons c rest ih =>
    intro cur hlast
    simp only [splitLinesAux]
    split_ifs with hc
    · subst hc
      cases hrest : rest with
      | nil =>
        exfalso
        refine hlast ?_
        rw [hrest]
        exact List.getLast?_concat _
      | cons b t =>
        rw [← hrest]
        have hne : splitLinesAux [] rest ≠ [] := by
          rw [hrest]; exact splitLinesAux_ne_nil _ [] (by simp)
        cases hsp : splitLinesAux [] rest with
        | nil => exact absurd hsp hne
        | cons l0 ls =>
          rw [joinNL_cons_cons, ← hsp]
          have hr : joinNL (splitLinesAux [] rest) = rest := by
            have := ih [] ?_
            · simpa using this
            · simp only [List.reverse_nil, List.nil_append]
              intro hcon
              refine hlast ?_
              rw [List.getLast?_append_of_ne_nil _ (by rw [hrest]; simp :
                ('\n' :: rest : List Char) ≠ []),
                getLast?_cons_of_ne_nil (by rw [hrest]; simp)]
              exact hcon
          rw [hr]
    · have h1 := ih (c :: cur) (by simpa [List.append_assoc] using hlast)
      simpa [List.append_assoc] using h1

theorem pyStripList_getLast {l : List Char} :
    ∀ c, (pyStripList l).getLast? = some c → pyWS c = false := by
  intro c hc
  unfold pyStripList at hc
  rw [List.getLast?_reverse] at hc
  exact head?_dropWhile _ c hc

theorem pyStripList_head {l : List Char} :
    ∀ c, (pyStripList l).head? = some c → pyWS c = false := by
  intro c hc
  unfold pyStripList at hc
  rw [List.head?_reverse] at hc
  by_cases hne : (l.dropWhile pyWS).reverse.dropWhile pyWS = []
  · rw [hne] at hc
    simp at hc
  · rw [getLast?_dropWhile_of_ne_nil hne, List.getLast?_reverse] at hc
    exact head?_dropWhile _ c hc

theorem pyStripList_sub (l : List Char) : pyStripList l <:+: l := by
  unfold pyStripList
  have h1 : (l.dropWhile pyWS).reverse.dropWhile pyWS <:+ (l.dropWhile pyWS).reverse :=
    List.dropWhile_suffix pyWS
  have h2 := h1.reverse
  rw [List.reverse_reverse] at h2
  exact h2.isInfix.trans (List.dropWhile_suffix pyWS).isInfix

theorem pyStripList_eq_self {l : List Char}
    (hh : ∀ c, l.head? = some c → pyWS c = false)
    (hl : ∀ c, l.getLast? = some c → pyWS c = false) : pyStripList l = l := by
  unfold pyStripList
  have h1 : l.dropWhile pyWS = l := by
    cases hc : l with
    | nil => rfl
    | cons a t =>
      rw [List.dropWhile_cons_of_neg (by simp [hh a (by rw [hc]; rfl)])]
  rw [h1]
  cases hrev : l.reverse with
  | nil => simp [List.reverse_eq_nil_iff.mp hrev]
  | cons x r =>
    have hx : l.getLast? = some x := by rw [← List.head?_reverse, hrev]; rfl
    rw [List.dropWhile_cons_of_neg (by simp [hl x hx])]
    rw [← hrev, List.reverse_reverse]

theorem joinNL_pairFree {f g : Char → Bool} (hf : f '\n' = false) :
    ∀ Ls : List (List Char), (∀ l ∈ Ls, hasPair f g l = false) →
    (∀ l ∈ Ls, ∀ c, l.getLast? = some c → (f c && g '\n') = false) →
    hasPair f g (joinNL Ls) = false := by
  intro Ls
  induction Ls with
  | nil => intro _ _; rfl
  | cons l ls ih =>
    intro hl hb
    cases ls with
    | nil => exact hl l (by simp)
    | cons l2 ls' =>
      rw [joinNL_cons_cons]
      refine hasPair_append_false _ _ (hl l (by simp)) ?_ ?_
      · rw [hasPair_cons_eq, Bool.or_eq_false_iff]
        refine ⟨?_, ih (fun x hx => hl x (by simp [hx]))
          (fun x hx => hb x (by simp [hx]))⟩
        cases (joinNL (l2 :: ls')).head? with
        | none => rfl
        | some y => simp [hf]
      · intro x hx y hy
        simp only [List.head?_cons, Option.some.injEq] at hy
        subst hy
        exact hb l (by simp) x hx

/-! ## Claim C10: the two-pass fixed point -/

theorem splitLines_rstrip_id : ∀ (u cur : List Char),
    hasPair wsNotNL isNL (cur.reverse ++ u) = false →
    (∀ c, (cur.reverse ++ u).getLast? = some c → pyWS c = false) →
    '\n' ∉ cur →
    (splitLinesAux cur u).map rstripLine = splitLinesAux cur u := by
  intro u
  induction u with
  | nil =>
    intro cur _ hlast _
    simp only [splitLinesAux]
    split_ifs with h
    · rfl
    · simp only [List.map_cons, List.map_nil, List.cons.injEq, and_true]
      exact rstripLine_eq_self fun c hc => hlast c (by simpa using hc)
  | cons c rest ih =>
    intro cur hp hlast hcur
    simp only [splitLinesAux]
    split_ifs with hc
    · subst hc
      simp only [List.map_cons, List.cons.injEq]
      constructor
      · cases hcurc : cur with
        | nil => rfl
        | cons x cur' =>
          have hshape : cur.reverse ++ '\n' :: rest =
              cur'.reverse ++ x :: '\n' :: rest := by
            rw [hcurc]
            simp
          have hx : (wsNotNL x && isNL '\n') = false := by
            refine hasPair_extract cur'.reverse x '\n' rest ?_
            rw [← hshape]
            exact hp
          have hx2 : wsNotNL x = false := by
            simpa [isNL] using hx
          have hx3 : pyWS x = false := by
            have hxn : x ≠ '\n' := by
              intro hcon
              refine hcur ?_
              rw [hcurc, hcon]
              simp
            simpa [wsNotNL, hxn] using hx2
          refine rstripLine_eq_self ?_
          intro d hd
          rw [List.getLast?_reverse] at hd
          simp only [List.head?_cons, Option.some.injEq] at hd
          subst hd
          exact hx3
      · refine ih [] ?_ ?_ (by simp)
        · simp only [List.reverse_nil, List.nil_append]
          exact hasPair_tail (hasPair_append_left cur.reverse _ hp)
        · simp only [List.reverse_nil, List.nil_append]
          intro d hd
          cases hrest : rest with
          | nil => rw [hrest] at hd; simp at hd
          | cons b t =>
            refine hlast d ?_
            rw [List.getLast?_append_of_ne_nil _ (by simp : ('\n' :: rest : List Char) ≠ []),
              getLast?_cons_of_ne_nil (by rw [hrest]; simp)]
            exact hd
    · have h1 := ih (c :: cur) (by simpa [List.append_assoc] using hp)
        (by simpa [List.append_assoc] using hlast) (by simp [hcur, Ne.symm hc])
      exact h1

/-- On text with no adjacent horizontal whitespace, no whitespace before a
newline, and non-whitespace edges, `normList` reduces to newline-run
collapsing alone: the other pipeline stages are the identity. -/
theorem normList_of_clean (w : List Char)
    (hA : hasPair hws hws w = false)
    (hB : hasPair wsNotNL isNL w = false)
    (hH : ∀ c, w.head? = some c → pyWS c = false)
    (hL : ∀ c, w.getLast? = some c → pyWS c = false) :
    normList w = collapseNL w := by
  by_cases hw : w = []
  · subst hw
    rfl
  · have hA' : hasPair hws hws (collapseNL w) = false := collapseNL_pair_hws w 0 hA
    have hB' : hasPair wsNotNL isNL (collapseNL w) = false := collapseNL_pair_wsnl w 0 hB
    have hL' : ∀ c, (collapseNL w).getLast? = some c → pyWS c = false :=
      collapseNL_getLast w 0 hw hL
    have hH' : ∀ c, (collapseNL w).head? = some c → pyWS c = false := by
      intro c hc
      exact hH c (collapseNLAux_head_zero w c hc)
    have h1 : collapseHWS (collapseNL w) = collapseNL w := by
      unfold collapseHWS
      simpa using collapseHWSAux_id (collapseNL w) [] (by simp) (by simp)
        (by simpa using hA')
    have h2 : (splitLinesAux [] (collapseNL w)).map rstripLine =
        splitLinesAux [] (collapseNL w) := by
      refine splitLines_rstrip_id (collapseNL w) [] (by simpa using hB') ?_ (by simp)
      intro c hc
      exact hL' c (by simpa using hc)
    have h3 : joinNL (splitLinesAux [] (collapseNL w)) = collapseNL w := by
      have := joinNL_splitLines (collapseNL w) [] ?_
      · simpa using this
      · simp only [List.reverse_nil, List.nil_append]
        intro hcon
        have := hL' '\n' hcon
        simp [pyWS] at this
    unfold normList splitLinesList
    rw [h1, h2, h3]
    exact pyStripList_eq_self hH' hL'

theorem normList_pair_hws (cs : List Char) :
    hasPair hws hws (normList cs) = false := by
  have hv : hasPair hws hws (collapseHWS (collapseNL cs)) = false := by
    unfold collapseHWS
    exact collapseHWS_pairFree _ [] (by simp)
  refine hasPair_infix_false (pyStripList_sub _) ?_
  refine joinNL_pairFree (by rfl) _ ?_ ?_
  · intro l hl
    rw [List.mem_map] at hl
    obtain ⟨l0, hl0, rfl⟩ := hl
    refine hasPair_infix_false ((rstripLine_pre l0).isInfix.trans ?_) hv
    simpa using splitLines_sub _ [] l0 hl0
  · intro l _ c _
    simp [hws]

theorem normList_pair_wsnl (cs : List Char) :
    hasPair wsNotNL isNL (normList cs) = false := by
  refine hasPair_infix_false (pyStripList_sub _) ?_
  refine joinNL_pairFree (by rfl) _ ?_ ?_
  · intro l hl
    rw [List.mem_map] at hl
    obtain ⟨l0, hl0, rfl⟩ := hl
    refine hasPair_false_of_no_g _ ?_
    intro b hb
    have hbl0 : b ∈ l0 := (rstripLine_pre l0).sublist.subset hb
    have hnl : '\n' ∉ l0 := splitLines_noNL _ [] (by simp) l0 hl0
    have : b ≠ '\n' := fun hcon => hnl (hcon ▸ hbl0)
    simp [isNL, this]
  · intro l hl c hc
    rw [List.mem_map] at hl
    obtain ⟨l0, _, rfl⟩ := hl
    have := rstripLine_getLast c hc
    simp [wsNotNL, this]

theorem normList_head (cs : List Char) :
    ∀ c, (normList cs).head? = some c → pyWS c = false :=
  fun c hc => pyStripList_head c hc

theorem normList_getLast (cs : List Char) :
    ∀ c, (normList cs).getLast? = some c → pyWS c = false :=
  fun c hc => pyStripList_getLast c hc

/-- Claim C10, counterexample: `normalize_text` is not idempotent.  For
`"a\n\n \n\nb"` the first pass keeps the whitespace-only middle line (the two
newline runs have length 2, under the 3+ threshold) but `rstrip` empties it,
producing `"a\n\n\n\nb"`; a second pass collapses the new 4-newline run to
`"a\n\nb"`. -/
theorem normalize_text_counterexample :
    normalize_text "a\n\n \n\nb" = "a\n\n\n\nb" ∧
    normalize_text (normalize_text "a\n\n \n\nb") = "a\n\nb" ∧
    normalize_text (normalize_text "a\n\n \n\nb") ≠ normalize_text "a\n\n \n\nb" := by
  refine ⟨by decide, by decide, by decide⟩

/-- Claim C10 (amended): `normalize_text` is not idempotent — per-line
trailing-whitespace stripping can turn a whitespace-only line into an empty
one and thereby create a new 3+-newline run that only the next pass
collapses — but one further application always reaches a fixed point:
applying `normalize_text` twice is idempotent. -/
theorem normalize_text_two_pass_fixpoint (t : String) :
    normalize_text (normalize_text (normalize_text t)) =
      normalize_text (normalize_text t) := by
  unfold normalize_text
  have htl : ∀ l : List Char, (String.mk l).toList = l := fun l => rfl
  rw [htl, htl]
  set u1 := normList t.toList with hu1
  have hstep1 : normList u1 = collapseNL u1 :=
    normList_of_clean u1 (normList_pair_hws _) (normList_pair_wsnl _)
      (normList_head _) (normList_getLast _)
  rw [hstep1]
  by_cases hu1nil : u1 = []
  · rw [hu1nil]
    rfl
  · have hA2 : hasPair hws hws (collapseNL u1) = false :=
      collapseNL_pair_hws u1 0 (normList_pair_hws _)
    have hB2 : hasPair wsNotNL isNL (collapseNL u1) = false :=
      collapseNL_pair_wsnl u1 0 (normList_pair_wsnl _)
    have hH2 : ∀ c, (collapseNL u1).head? = some c → pyWS c = false :=
      fun c hc => normList_head t.toList c (hu1 ▸ collapseNLAux_head_zero u1 c hc)
    have hL2 : ∀ c, (collapseNL u1).getLast? = some c → pyWS c = false :=
      collapseNL_getLast u1 0 hu1nil (normList_getLast _)
    have hstep2 : normList (collapseNL u1) = collapseNL (collapseNL u1) :=
      normList_of_clean _ hA2 hB2 hH2 hL2
    have hfix : collapseNL (collapseNL u1) = collapseNL u1 := by
      have := collapseNLAux_id (collapseNL u1) 0 (by omega)
        (by simpa using collapseNL_tripleFree u1 0)
      simpa using this
    rw [hstep2, hfix]

end GenericRAG
